import Mathlib

/-!
Verification of the agentic chat orchestrator (chatbot-service, rag-service).

This file gives a shallow embedding of the components referenced by the
claims under scrutiny and proves or refutes each claim:

* `agents/context_manager.py` — the session tool cache (`make_cache_key`,
  `get_cached_tool_result`, `set_cached_tool_result`);
* `services/tool_executor.py` — `ToolExecutor.execute_plan` (argument filling,
  caching, bounded re-planning);
* `services/orchestrator.py` — `_agentic_topo_sort`, the runtime's
  two-parameter `fill_args` delegate, and the rule-based streaming branch;
* `rag-service/bm25.py` — `BM25Index._idf`;
* `rag-service/chunking.py` — the character-overlap stage of `chunk_markdown`
  and `chunk_text_fallback`;
* `rag-service/main.py` — the final sort/top-k stage of `_hybrid_search`.

Modelling conventions: Python strings are Lean `String`s (sequences of code
points; character-level slicing is done on `String.data`); Python floats
(timestamps, scores) are rationals `ℚ` except for `math.log`, which is modelled
over the reals; Python dicts are association lists with dict update semantics
(first occurrence keeps its position, later assignments overwrite in place);
Python sets are `Finset`s; a raised exception is `Except.error`.
-/

/-! ### JSON-like values

Model of the Python values that appear in tool argument mappings and tool
results (`dict`/`list`/`str`/`int`/`bool`/`None`).  Numeric JSON values are
modelled as integers. -/

inductive JValue where
  | null : JValue
  | bool (b : Bool) : JValue
  | num (n : Int) : JValue
  | str (s : String) : JValue
  | arr (items : List JValue) : JValue
  | obj (fields : List (String × JValue)) : JValue

/-- An argument mapping: the model of a Python `dict[str, Any]` of tool args. -/
abbrev ArgsMap := List (String × JValue)

/-- Python's `cached is not None` test on a value returned from the cache. -/
def JValue.isNull : JValue → Bool
  | .null => true
  | _ => false

/-! ### Code-point lexicographic order on strings

`json.dumps(..., sort_keys=True)` sorts object keys by code points.  We use an
executable lexicographic comparison on `String.data` (Mathlib's `String` order
is not kernel-reducible, and this is the faithful model of CPython's `str`
comparison). -/

def lexLe : List Char → List Char → Bool
  | [], _ => true
  | _ :: _, [] => false
  | a :: as, b :: bs => if a < b then true else if b < a then false else lexLe as bs

def strLe (a b : String) : Bool := lexLe a.data b.data

/-! ### Canonical serialization (`ContextManager.make_cache_key`)

`json.dumps(args or {}, ensure_ascii=False, sort_keys=True,
separators=(",", ":"))`: object keys are sorted (recursively) by code points
and the compact separators are used.  We model the key sort as a stable
insertion sort and the string escaping with the JSON escapes for backslash,
double quote and control characters (CPython abbreviates some control escapes
to the short forms `\n`, `\t`, …, which does not affect any property stated
here). -/

def insertField (p : String × JValue) : List (String × JValue) → List (String × JValue)
  | [] => [p]
  | q :: rest => if strLe p.1 q.1 then p :: q :: rest else q :: insertField p rest

def sortFields : List (String × JValue) → List (String × JValue)
  | [] => []
  | p :: rest => insertField p (sortFields rest)

mutual
def canonJValue : JValue → JValue
  | .null => .null
  | .bool b => .bool b
  | .num n => .num n
  | .str s => .str s
  | .arr items => .arr (canonJList items)
  | .obj fields => .obj (sortFields (canonJFields fields))
def canonJList : List JValue → List JValue
  | [] => []
  | v :: rest => canonJValue v :: canonJList rest
def canonJFields : List (String × JValue) → List (String × JValue)
  | [] => []
  | (k, v) :: rest => (k, canonJValue v) :: canonJFields rest
end

def hexDigit (n : Nat) : Char := if n < 10 then Char.ofNat (48 + n) else Char.ofNat (87 + n)

def jsonEscapeChar (c : Char) : List Char :=
  if c = '\\' then ['\\', '\\']
  else if c = '"' then ['\\', '"']
  else if c.toNat < 32 then ['\\', 'u', '0', '0', hexDigit (c.toNat / 16), hexDigit (c.toNat % 16)]
  else [c]

def jsonQuote (s : String) : String :=
  "\"" ++ String.mk (s.data.flatMap jsonEscapeChar) ++ "\""

mutual
def serJValue : JValue → String
  | .null => "null"
  | .bool b => if b then "true" else "false"
  | .num n => toString n
  | .str s => jsonQuote s
  | .arr items => "[" ++ serJList items ++ "]"
  | .obj fields => "\x7b" ++ serJFields fields ++ "\x7d"
def serJList : List JValue → String
  | [] => ""
  | [v] => serJValue v
  | v :: w :: rest => serJValue v ++ "," ++ serJList (w :: rest)
def serJFields : List (String × JValue) → String
  | [] => ""
  | [(k, v)] => jsonQuote k ++ ":" ++ serJValue v
  | (k, v) :: q :: rest => jsonQuote k ++ ":" ++ serJValue v ++ "," ++ serJFields (q :: rest)
end

/-- ContextManager.make_cache_key: `f"{tool_name}:{args_s}"` where `args_s` is
the canonical (sorted-keys, compact-separators) JSON serialization of `args`.
An empty mapping serializes like `args or {}` does, so no separate branch is
needed; the `except` fallback to `str(args)` is unreachable for JSON-like
values. -/
def make_cache_key (tool_name : String) (args : ArgsMap) : String :=
  tool_name ++ ":" ++ serJValue (canonJValue (.obj args))

/-! ### Session tool cache (`ContextManager`)

`session.session_metadata["tool_cache"][cache_key] = {"ts": float, "value": Any}`.
Timestamps are rationals; `lookupA`/`setItem` give Python dict get/assignment
semantics (assignment to an existing key keeps its position). -/

structure CacheEntry where
  ts : ℚ
  value : JValue

abbrev ToolCache := List (String × CacheEntry)

abbrev SessionStore := List (String × ToolCache)

def lookupA {β : Type} : List (String × β) → String → Option β
  | [], _ => none
  | (k, v) :: rest, key => if k = key then some v else lookupA rest key

def setItem {β : Type} : List (String × β) → String → β → List (String × β)
  | [], key, v => [(key, v)]
  | (k, w) :: rest, key, v =>
      if k = key then (k, v) :: rest else (k, w) :: setItem rest key v

/-- ContextManager._ensure_tool_cache: creates a minimal session with an empty
tool cache when the session id is unknown; otherwise leaves the store as is
(the session's existing `tool_cache` dict is reused). -/
def ensure_tool_cache (store : SessionStore) (session_id : String) : SessionStore :=
  match lookupA store session_id with
  | some _ => store
  | none => setItem store session_id []

/-- The tool cache a read through `_ensure_tool_cache` observes: the session's
cache when present, otherwise the freshly created empty one. -/
def tool_cache_of (store : SessionStore) (session_id : String) : ToolCache :=
  (lookupA store session_id).getD []

/-- ContextManager.get_cached_tool_result: look the key up in the session's
tool cache; return `None` when absent or when a ttl is supplied and
`now - ts > ttl`; otherwise return the stored value.  (`now` models the
`time.time()` reading taken inside the call; entries are always well-formed
dicts with a numeric `ts` because `set_cached_tool_result` is the only
writer.) -/
def get_cached_tool_result (now : ℚ) (store : SessionStore) (session_id key : String)
    (ttl_seconds : Option ℚ) : Option JValue :=
  match lookupA (tool_cache_of store session_id) key with
  | none => none
  | some entry =>
      match ttl_seconds with
      | some ttl => if now - entry.ts > ttl then none else some entry.value
      | none => some entry.value

/-- ContextManager.set_cached_tool_result: ensure the session's cache exists,
then store `{"ts": time.time(), "value": value}` under the key. -/
def set_cached_tool_result (now : ℚ) (store : SessionStore) (session_id key : String)
    (value : JValue) : SessionStore :=
  let store1 := ensure_tool_cache store session_id
  setItem store1 session_id (setItem (tool_cache_of store1 session_id) key ⟨now, value⟩)

/-! ### BM25 IDF (`rag-service/bm25.py`, `BM25Index._idf`)

`idf = math.log(1.0 + (n - df + 0.5) / (df + 0.5))` where `n` is the corpus
size and `df` the document frequency of the term.  The float computation is
modelled over the reals. -/

noncomputable def bm25_idf (n df : ℕ) : ℝ :=
  Real.log (1 + ((n : ℝ) - (df : ℝ) + 0.5) / ((df : ℝ) + 0.5))

/-! ### Properties of the canonical key sort -/

/-- The key order used by `sort_keys=True`, lifted to fields. -/
def leKey (a b : String × JValue) : Prop := strLe a.1 b.1 = true

/-! ### Claim C4: cache get/set semantics -/

/-! ### Claim C9: IDF non-negativity -/

/-! ### Chunk overlap stage (`rag-service/chunking.py`)

The character-level overlap applied after chunks are emitted, in
`chunk_markdown` (lines 179–191) and `chunk_text_fallback` (lines 213–224).
Chunk text is modelled as `List Char` (Python string slicing is by code
point). -/

/-- A markdown chunk: `Chunk(text=..., meta={"heading_path": ...})`. -/
structure MChunk where
  text : List Char
  headingPath : String

/-- The running tail kept by the overlap loop:
`t[-overlap:] if len(t) > overlap else t`. -/
def overlapTail (overlap : Int) (t : List Char) : List Char :=
  if (t.length : Int) > overlap then t.drop (t.length - overlap.toNat) else t

/-- The overlap loop of `chunk_markdown`: walk the chunks keeping `prev_tail`;
a chunk with a non-empty `prev_tail` pending is re-emitted as
`Chunk(text=prev_tail + ch.text, meta=dict(ch.meta))`, otherwise unchanged. -/
def overlapLoopMd (overlap : Int) (out : List MChunk) (prevTail : List Char) :
    List MChunk → List MChunk
  | [] => out
  | ch :: rest =>
      let out' := if prevTail ≠ [] then out ++ [⟨prevTail ++ ch.text, ch.headingPath⟩]
                  else out ++ [ch]
      overlapLoopMd overlap out' (overlapTail overlap ch.text) rest

/-- chunk_markdown, overlap stage: `if overlap <= 0 or len(chunks) <= 1:
return chunks` else run the loop over the emitted chunks. -/
def applyOverlapMd (overlap : Int) (chunks : List MChunk) : List MChunk :=
  if overlap ≤ 0 ∨ chunks.length ≤ 1 then chunks
  else overlapLoopMd overlap [] [] chunks

/-- The overlap loop of `chunk_text_fallback` (same algorithm on bare
strings). -/
def overlapLoopFb (overlap : Int) (out : List (List Char)) (prevTail : List Char) :
    List (List Char) → List (List Char)
  | [] => out
  | c :: rest =>
      let out' := if prevTail ≠ [] then out ++ [prevTail ++ c] else out ++ [c]
      overlapLoopFb overlap out' (overlapTail overlap c) rest

/-- chunk_text_fallback, overlap stage: `if overlap > 0 and len(raw) > 1:`
run the loop, else keep `raw`. -/
def applyOverlapFb (overlap : Int) (raw : List (List Char)) : List (List Char) :=
  if 0 < overlap ∧ 1 < raw.length then overlapLoopFb overlap [] [] raw else raw

/-- Specification form of the markdown overlap loop. -/
def specMd (overlap : Int) : List Char → List MChunk → List MChunk
  | _, [] => []
  | pt, ch :: rest =>
      ⟨pt ++ ch.text, ch.headingPath⟩ :: specMd overlap (overlapTail overlap ch.text) rest

/-- Specification form of the fallback overlap loop. -/
def specFb (overlap : Int) : List Char → List (List Char) → List (List Char)
  | _, [] => []
  | pt, c :: rest => (pt ++ c) :: specFb overlap (overlapTail overlap c) rest

/-! ### Hybrid retrieval, final ranking stage (`rag-service/main.py`, `_hybrid_search`)

After fusion each candidate carries an id and a fused score
(`c["score"]`); the function ends with
`cands.sort(key=lambda x: float(x.get("score") or 0.0), reverse=True)` and
`return cands[: int(top_k)]`.  CPython's `list.sort` is stable; a stable sort
by one key is computed exactly by the stable descending insertion sort below.
Scores are rationals. -/

structure Cand where
  id : String
  score : ℚ
deriving DecidableEq

def insertDesc (c : Cand) : List Cand → List Cand
  | [] => [c]
  | d :: rest => if d.score ≤ c.score then c :: d :: rest else d :: insertDesc c rest

def sortByScoreDesc : List Cand → List Cand
  | [] => []
  | c :: rest => insertDesc c (sortByScoreDesc rest)

/-- The tail of `_hybrid_search`: stable sort by fused score, descending, then
`cands[: int(top_k)]`. -/
def hybrid_rank (top_k : Nat) (cands : List Cand) : List Cand :=
  (sortByScoreDesc cands).take top_k

/-! ### Tool executor (`services/tool_executor.py`)

`ToolExecutor.execute_plan`: iterate over the (already topologically sorted)
task list with index `i`; for a task whose tool is not the sentinel "none",
fill empty args via the delegate, consult the session cache, otherwise call
the downstream endpoint and cache the result; on a downstream exception record
an error observation and possibly re-plan (bounded by `max_replans`).  The
downstream HTTP endpoints and the wall clock are oracles in the environment;
the Python loop carries no fuel, so the loop is modelled fuelled and theorem
C2 proves some fuel always suffices. -/

/-- Python `str.strip()` (whitespace at both ends removed). -/
def pyStrip (s : String) : String :=
  ⟨((s.data.dropWhile Char.isWhitespace).reverse.dropWhile Char.isWhitespace).reverse⟩

/-- An args schema: field name → type hint, as in `DEFAULT_TOOL_SPECS`. -/
abbrev Schema := List (String × String)

/-- ToolDef dataclass. -/
structure ToolDef where
  name : String
  args_schema : Schema
  ttl_seconds : Option ℚ

/-- ToolExecutor.tool_schema: first matching tool's schema, else `{}`. -/
def tool_schema (tools : List ToolDef) (tool_name : String) : Schema :=
  match tools.find? (fun t => t.name == tool_name) with
  | some t => t.args_schema
  | none => []

/-- ToolExecutor.tool_ttl: first matching tool's ttl, else `None`. -/
def tool_ttl (tools : List ToolDef) (tool_name : String) : Option ℚ :=
  match tools.find? (fun t => t.name == tool_name) with
  | some t => t.ttl_seconds
  | none => none

/-- A task dict as produced by the planner: all fields optional, mirroring
`t.get(...)` access. -/
structure PTask where
  id : Option String := none
  text : Option String := none
  tool : Option String := none
  args : Option ArgsMap := none
  depends_on : List String := []

/-- `str(t.get("tool") or "none").strip()` (a missing or empty tool becomes
the sentinel "none"). -/
def task_tool (t : PTask) : String :=
  pyStrip (match t.tool with
    | none => "none"
    | some s => if s = "" then "none" else s)

/-- `t.get("args") if isinstance(t.get("args"), dict) else {}`. -/
def task_args (t : PTask) : ArgsMap := t.args.getD []

/-- `str(t.get("text") or "")`. -/
def task_text (t : PTask) : String := (t.text.getD "")

/-- The observation dicts appended by `execute_plan`: a note for "none"
tasks, a cached result, a fresh downstream result, or an error. -/
inductive Obs where
  | note (task_id : Option String) (text : String)
  | cachedResult (task_id : Option String) (tool : String) (args : ArgsMap) (result : JValue)
  | freshResult (task_id : Option String) (tool : String) (args : ArgsMap) (result : JValue)
  | errorResult (task_id : Option String) (tool : String) (args : ArgsMap) (err : String)

/-- The argument-fill delegate.  `execute_plan` always invokes it with three
positional arguments — `fill_args_fn(tool, self.tool_schema(tool),
list(observations))` — so a Python callable declaring two positional
parameters raises `TypeError` at the call. -/
inductive FillFn where
  | twoParams (f : String → Schema → ArgsMap)
  | threeParams (f : String → Schema → List Obs → ArgsMap)

/-- Python call semantics for the three-argument invocation of the delegate
(the `or {}` coercion of a falsy result is the identity on our mappings). -/
def callFillArgs : FillFn → String → Schema → List Obs → Except String ArgsMap
  | .twoParams _, _, _, _ =>
      .error "TypeError: fill_args() takes 2 positional arguments but 3 were given"
  | .threeParams f, tool, schema, obs => .ok (f tool schema obs)

/-- The agentic runtime's argument-fill delegate
(`Orchestrator._agentic_run.fill_args` and `Orchestrator.stream.fill_args`):
`def fill_args(tool, schema)` declares exactly two positional parameters; its
body (an LLM call whose reply is parsed for `{"args": {...}}`) is abstracted,
as the LLM is an external collaborator — only the declared arity matters
here. -/
def agentic_fill_args (llm_filled : String → Schema → ArgsMap) : FillFn :=
  .twoParams llm_filled

/-- The re-plan delegate: `None`, or a function whose result replaces the task
list only when it is a non-empty list. -/
abbrev ReplanFn := Option (List PTask → List Obs → Option (List PTask))

/-- The environment of one `execute_plan` run: the session, the tool registry,
the downstream endpoints (an oracle mapping a tool call to its JSON result or
to the exception it raises) and the wall clock (successive `time.time()`
readings). -/
structure ExecEnv where
  session_id : String
  tools : List ToolDef
  call_tool : String → ArgsMap → Except String JValue
  clock : Nat → ℚ

/-- The mutable state of the `execute_plan` loop. -/
structure ExecState where
  observations : List Obs
  used_tools : List String
  current_tasks : List PTask
  i : Nat
  replans : Nat
  store : SessionStore
  ticks : Nat

def initExecState (tasks : List PTask) (store : SessionStore) : ExecState :=
  ⟨[], [], tasks, 0, 0, store, 0⟩

/-- Ascending code-point sort of strings (for `sorted(list(set(...)))`). -/
def insertStr (s : String) : List String → List String
  | [] => [s]
  | t :: rest => if strLe s t then s :: t :: rest else t :: insertStr s rest

def sortStrings : List String → List String
  | [] => []
  | s :: rest => insertStr s (sortStrings rest)

/-- `sorted(list(set(used_tools)))`. -/
def sorted_unique (l : List String) : List String := sortStrings l.eraseDups

/-- The value returned by `execute_plan`:
`(observations, sorted(list(set(used_tools))), current_tasks)`. -/
structure ExecResult where
  observations : List Obs
  used_tools : List String
  final_tasks : List PTask

/-- One iteration of the `while i < len(current_tasks)` loop: the loop is done,
or it continues in a new state, or an exception (from the un-guarded delegate
invocation) propagates out of `execute_plan`. -/
inductive StepOut where
  | done (r : ExecResult)
  | next (s : ExecState)
  | raised (e : String)

def execStep (env : ExecEnv) (fill : FillFn) (replan : ReplanFn) (max_replans : Nat)
    (s : ExecState) : StepOut :=
  if h : s.i < s.current_tasks.length then
    let t := s.current_tasks.get ⟨s.i, h⟩
    let tool := task_tool t
    if tool ≠ "" ∧ tool ≠ "none" then
      match (if (task_args t).isEmpty
             then callFillArgs fill tool (tool_schema env.tools tool) s.observations
             else .ok (task_args t) : Except String ArgsMap) with
      | .error e => .raised e
      | .ok args =>
        let cache_key := make_cache_key tool args
        let ttl := tool_ttl env.tools tool
        let fetched := get_cached_tool_result (env.clock s.ticks) s.store env.session_id
          cache_key ttl
        let s1 : ExecState := { s with ticks := s.ticks + 1 }
        -- Python tests `cached is not None`: a stored JSON null comes back as
        -- None from get_cached_tool_result and therefore counts as a miss.
        match (match fetched with
               | some v => if v.isNull then none else some v
               | none => none : Option JValue) with
        | some v =>
            .next { s1 with
              observations := s1.observations ++ [.cachedResult t.id tool args v],
              used_tools := s1.used_tools ++ [tool],
              i := s1.i + 1 }
        | none =>
          match env.call_tool tool args with
          | .ok result =>
              .next { s1 with
                store := set_cached_tool_result (env.clock s1.ticks) s1.store env.session_id
                  cache_key result,
                ticks := s1.ticks + 1,
                observations := s1.observations ++ [.freshResult t.id tool args result],
                used_tools := s1.used_tools ++ [tool],
                i := s1.i + 1 }
          | .error e =>
              match replan with
              | some rf =>
                  if s1.replans < max_replans then
                    match rf s1.current_tasks
                        (s1.observations ++ [.errorResult t.id tool args e]) with
                    | some (t0 :: ts) =>
                        .next { s1 with
                          observations := s1.observations ++ [.errorResult t.id tool args e],
                          current_tasks := t0 :: ts,
                          replans := s1.replans + 1,
                          i := 0 }
                    | _ =>
                        .next { s1 with
                          observations := s1.observations ++ [.errorResult t.id tool args e],
                          used_tools := s1.used_tools ++ [tool],
                          i := s1.i + 1 }
                  else
                    .next { s1 with
                      observations := s1.observations ++ [.errorResult t.id tool args e],
                      used_tools := s1.used_tools ++ [tool],
                      i := s1.i + 1 }
              | none =>
                  .next { s1 with
                    observations := s1.observations ++ [.errorResult t.id tool args e],
                    used_tools := s1.used_tools ++ [tool],
                    i := s1.i + 1 }
    else
      .next { s with
        observations := s.observations ++ [.note t.id (task_text t)],
        i := s.i + 1 }
  else
    .done ⟨s.observations, sorted_unique s.used_tools, s.current_tasks⟩

/-- The fuelled `while` loop; `none` means the fuel ran out before the loop
finished. -/
def execLoopFuel (env : ExecEnv) (fill : FillFn) (replan : ReplanFn) (max_replans : Nat) :
    Nat → ExecState → Option (Except String ExecResult)
  | 0, _ => none
  | fuel + 1, s =>
      match execStep env fill replan max_replans s with
      | .done r => some (.ok r)
      | .raised e => some (.error e)
      | .next s' => execLoopFuel env fill replan max_replans fuel s'

/-- ToolExecutor.execute_plan (fuelled). -/
def execute_plan (env : ExecEnv) (fill : FillFn) (replan : ReplanFn) (max_replans : Nat)
    (tasks : List PTask) (store : SessionStore) (fuel : Nat) :
    Option (Except String ExecResult) :=
  execLoopFuel env fill replan max_replans fuel (initExecState tasks store)

/-- A concrete executor environment whose downstream always raises. -/
def c10Env : ExecEnv :=
  { session_id := "s", tools := [], call_tool := fun _ _ => .error "boom",
    clock := fun _ => 0 }

/-- A concrete planned task with a real tool and non-empty args. -/
def c10Task : PTask :=
  { id := some "t1", tool := some "weather.get",
    args := some [("city", JValue.str "Seoul")] }

/-! ### Rule-based streaming branch (`services/orchestrator.py`, `Orchestrator.stream`)

The structured stream executed when the LLM is disabled (or after the agentic
try block fails), lines 686–767.  The intent analysis produced by the keyword
classifier is an input (the classifier is specified separately); the weather
and notification downstreams are oracles.  A yielded event dict
`{todo, completed, status, final?, done?}` is a `StreamEvent`; a generator
that raises mid-stream is modelled by the list of events emitted so far paired
with `some` exception. -/

structure StreamEvent where
  todo : List String
  completed : Nat
  status : String
  final : Option String := none
  done : Bool := false

/-- The keyword analysis fields the rule-based stream reads. -/
structure RuleAnalysis where
  intent : String
  apis : List String
  notify_param : Bool

/-- `"notification" in apis or bool((analysis.get("parameters") or {}).get("notify"))`. -/
def wants_notify (a : RuleAnalysis) : Bool :=
  a.apis.contains "notification" || a.notify_param

/-- Does the character list start with the given needle? -/
def startsWithChars : List Char → List Char → Bool
  | [], _ => true
  | _ :: _, [] => false
  | a :: as, b :: bs => a == b && startsWithChars as bs

/-- Does the character list contain the needle as a contiguous run? -/
def containsChars (needle : List Char) : List Char → Bool
  | [] => needle.isEmpty
  | b :: bs => startsWithChars needle (b :: bs) || containsChars needle bs

/-- Python `needle in hay` on strings. -/
def strContains (hay needle : String) : Bool := containsChars needle.data hay.data

/-- Python `str.lower()` (ASCII-faithful). -/
def pyLower (s : String) : String := ⟨s.data.map Char.toLower⟩

/-- `_extract_city`: first known city contained in the text, else 서울. -/
def _extract_city (text : String) : String :=
  match ["서울", "부산", "인천", "대구", "광주", "대전", "울산", "세종"].find?
      (fun c => strContains text c) with
  | some c => c
  | none => "서울"

/-- The channel picked from the message (identical conditional chain in the
weather-with-notification and notification-only branches). -/
def pick_channel (message : String) : String :=
  if strContains message "슬랙" || strContains (pyLower message) "slack" then "slack"
  else if strContains message "이메일" || strContains (pyLower message) "email"
      || strContains (pyLower message) "메일" then "email"
  else if strContains message "문자" || strContains (pyLower message) "sms" then "sms"
  else "slack"

/-- `_rule_todo_list(user_input, analysis)`: the UI to-do list for the
rule-based branch (the user input argument is unused by the function). -/
def _rule_todo_list (a : RuleAnalysis) : List String :=
  let notifyTasks := ["팀에게 전달할 메시지를 구성한다", "notification-service로 발송한다",
    "발송 결과를 확인한다"]
  if a.intent = "weather_query" ∨ a.intent = "weather" then
    ["도시/기간 등 파라미터를 추출한다", "weather-service를 호출해 데이터를 가져온다",
      "결과를 요약해 답변한다"] ++ (if wants_notify a then notifyTasks else [])
  else if a.intent = "calendar_query" ∨ a.intent = "calendar" then
    ["날짜(오늘/내일/특정일)를 해석한다", "calendar-service를 호출해 일정을 가져온다",
      "일정/빈시간을 요약한다"] ++ (if wants_notify a then notifyTasks else [])
  else if a.intent = "calendar_create" then
    ["제목/시간/날짜를 추출한다", "calendar-service에 이벤트 생성을 요청한다",
      "생성 결과를 확인해 사용자에게 안내한다"] ++ (if wants_notify a then notifyTasks else [])
  else if a.intent = "file_search" then
    ["검색 키워드를 정제한다", "file-service를 호출해 검색한다", "상위 결과를 리스트업한다"]
      ++ (if wants_notify a then notifyTasks else [])
  else if a.intent = "notification_send" ∨ a.intent = "notify" then
    ["채널(email/slack/sms)과 수신자를 결정한다", "notification-service로 발송한다",
      "발송 결과를 확인한다"]
  else if a.intent = "help" then
    ["가능한 기능/예시를 정리해서 안내한다"]
  else
    ["rag-service(Qdrant)를 질의해 관련 문서를 찾는다", "근거(출처)와 함께 간단히 답한다"]

/-- The weather downstream's JSON fields used by the branch. -/
structure WeatherData where
  city : String
  condition : String
  temperature : Int

/-- The notification downstream's JSON fields used by the branch. -/
structure NotifyResult where
  id : String
  channel : String

/-- Downstream oracles for the rule-based stream. -/
structure RuleStreamEnv where
  weather : String → Except String WeatherData
  notify : String → String → String → String → Except String NotifyResult

/-- The rule-based section of `Orchestrator.stream` (weather, notification-only
and fallback intents; the calendar/file/help intents take the final fallback
yield).  Returns the emitted events and the exception that escaped the
generator, if any. -/
def stream_rule_based (env : RuleStreamEnv) (message : String) (a : RuleAnalysis) :
    List StreamEvent × Option String :=
  let tasks := _rule_todo_list a
  let ev0 : List StreamEvent :=
    [⟨tasks, 0, "계획 수립 중...", none, false⟩, ⟨tasks, 0, "의도 분석 완료", none, false⟩]
  if a.intent = "weather" ∨ a.intent = "weather_query" then
    let city := _extract_city message
    let c1 := min (0 + 1) tasks.length
    let ev1 := ev0 ++ [⟨tasks, c1, "파라미터 추출 완료", none, false⟩]
    let c2 := min (c1 + 1) tasks.length
    let ev2 := ev1 ++ [⟨tasks, c2, "weather-service 호출 중...", none, false⟩]
    match env.weather city with
    | .error e => (ev2, some e)
    | .ok data =>
      let summary := data.city ++ " 현재 날씨는 " ++ data.condition ++ ", "
        ++ toString data.temperature ++ "°C 입니다."
      let c3 := min (c2 + 1) tasks.length
      if wants_notify a then
        let ev3 := ev2 ++ [⟨tasks, c3, "결과 요약 완료", none, false⟩]
        let c4 := min (c3 + 1) tasks.length
        let ev4 := ev3 ++ [⟨tasks, c4, "notification-service 발송 중...", none, false⟩]
        match env.notify "날씨 알림" summary "team" (pick_channel message) with
        | .error e => (ev4, some e)
        | .ok nm =>
          let c5 := min (c4 + 1) tasks.length
          let ev5 := ev4 ++ [⟨tasks, c5, "발송 결과 확인 완료", none, false⟩]
          let final := summary ++ "\n\n[mock] " ++ nm.channel ++ " 알림 발송 완료 (id="
            ++ nm.id ++ ")"
          (ev5 ++ [⟨tasks, c5, "완료", some final, true⟩], none)
      else
        (ev2 ++ [⟨tasks, c3, "완료", some summary, true⟩], none)
  else if a.intent = "notify" ∨ a.intent = "notification_send" then
    let c1 := min (0 + 1) tasks.length
    let ev1 := ev0 ++ [⟨tasks, c1, "채널/수신자 결정 완료", none, false⟩]
    let channel := pick_channel message
    let c2 := min (c1 + 1) tasks.length
    let ev2 := ev1 ++ [⟨tasks, c2, "notification-service 발송 중...", none, false⟩]
    match env.notify "알림" message "team" channel with
    | .error e => (ev2, some e)
    | .ok nm =>
      let c3 := min (c2 + 1) tasks.length
      let final := "[mock] " ++ channel ++ " 알림 발송 완료 (id=" ++ nm.id ++ ")"
      (ev2 ++ [⟨tasks, c3, "완료", some final, true⟩], none)
  else
    (ev0 ++ [⟨tasks, tasks.length, "완료", some message, true⟩], none)

/-- The concrete downstream behavior for the C7 evaluation: both services
answer successfully. -/
def c7Env : RuleStreamEnv :=
  { weather := fun city => .ok ⟨city, "맑음", 21⟩,
    notify := fun _ _ _ ch => .ok ⟨"n1", ch⟩ }

/-- The keyword analysis of a weather request that also asks to notify the
team (composite detection appends "notification" to apis). -/
def c7Analysis : RuleAnalysis :=
  { intent := "weather", apis := ["weather", "notification"], notify_param := false }

/-! ### Topological sort (`services/orchestrator.py`, `Orchestrator._agentic_topo_sort`)

`by_id = {t.get("id"): t for t in tasks if isinstance(t, dict) and t.get("id")}`,
then a DFS over the ids with `visiting`/`visited` sets: a tid already visited
or currently on the stack returns immediately (back edges of cycles are
skipped), dependencies present in `by_id` are visited first, and the task is
appended to `out` post-order; finally a stable de-duplication by id.  Python
sets are `Finset`s.  The Python recursion carries no fuel; its depth is
bounded by the number of `by_id` keys plus one (every proper ancestor frame
has pushed a distinct key onto `visiting`), so the model runs the recursion
with fuel `len(by_id) + 1` and the fuel-stability part of the C3 theorem shows
any larger fuel computes the same result — i.e. the Python recursion
terminates. -/

/-- `t.get("id")` filtered by truthiness, as the `by_id` comprehension does. -/
def truthy_id (t : PTask) : Option String :=
  match t.id with
  | some s => if s = "" then none else some s
  | none => none

/-- The `by_id` insertion-ordered dict. -/
def by_id (tasks : List PTask) : List (String × PTask) :=
  tasks.foldl
    (fun m t =>
      match truthy_id t with
      | some k => setItem m k t
      | none => m) []

structure TopoState where
  visiting : Finset String
  visited : Finset String
  out : List PTask

def keysFinset (byId : List (String × PTask)) : Finset String :=
  (byId.map Prod.fst).toFinset

/-- The ids of the emitted tasks, in order. -/
def outKeys (l : List PTask) : List String := l.filterMap PTask.id

/-- Every id mentioned in some `by_id` task's `depends_on` list. -/
def depsAll (byId : List (String × PTask)) : List String :=
  byId.foldr (fun p acc => p.2.depends_on ++ acc) []

/-- The recursive `dfs(tid)` closure of `_agentic_topo_sort` (fuelled): check
`visited`/`visiting`, push onto `visiting`, recurse into the dependencies that
are present in `by_id` (in list order), pop, mark visited, append the task. -/
def topoDfs (byId : List (String × PTask)) : Nat → String → TopoState → TopoState
  | 0, _, st => st
  | fuel + 1, tid, st =>
    if tid ∈ st.visited then st
    else if tid ∈ st.visiting then st
    else
      match lookupA byId tid with
      | none => { st with visited := insert tid st.visited }
      | some t =>
          let st1 : TopoState := { st with visiting := insert tid st.visiting }
          let st2 := t.depends_on.foldl
            (fun acc d => if (lookupA byId d).isSome then topoDfs byId fuel d acc else acc)
            st1
          { st2 with
            visiting := st2.visiting.erase tid,
            visited := insert tid st2.visited,
            out := st2.out ++ [t] }

/-- The top-level loop `for tid in list(by_id.keys()): dfs(tid)`. -/
def topoDfsTop (byId : List (String × PTask)) (fuel : Nat) : TopoState :=
  (byId.map Prod.fst).foldl (fun st tid => topoDfs byId fuel tid st) ⟨∅, ∅, []⟩

/-- The final stable de-duplication by `t.get("id")`. -/
def dedupe_stable (seen : Finset (Option String)) : List PTask → List PTask
  | [] => []
  | t :: rest =>
      if t.id ∈ seen then dedupe_stable seen rest
      else t :: dedupe_stable (insert t.id seen) rest

/-- Orchestrator._agentic_topo_sort. -/
def _agentic_topo_sort (tasks : List PTask) : List PTask :=
  dedupe_stable ∅ (topoDfsTop (by_id tasks) ((by_id tasks).length + 1)).out

/-- The dependency fold inside `dfs`: `for d in deps: if isinstance(d, str) and
d in by_id: dfs(d)` (definitionally the fold in `topoDfs`'s body). -/
def topoDfsFold (byId : List (String × PTask)) (fuel : Nat) (ds : List String)
    (st : TopoState) : TopoState :=
  ds.foldl (fun acc d => if (lookupA byId d).isSome then topoDfs byId fuel d acc else acc) st

/-- State extension: one `dfs` call restores `visiting`, only grows `visited`,
and only appends to `out`. -/
def TopoExtends (st st' : TopoState) : Prop :=
  st'.visiting = st.visiting ∧ st.visited ⊆ st'.visited ∧ ∃ Δ, st'.out = st.out ++ Δ

/-- The state invariant of the DFS: `visiting` and `visited` are disjoint, the
emitted ids are duplicate-free, `visited` is exactly the set of emitted ids,
every visited id is a `by_id` key, and every emitted task carries its id. -/
def TopoInv (byId : List (String × PTask)) (st : TopoState) : Prop :=
  st.visiting ∩ st.visited = ∅ ∧
  (outKeys st.out).Nodup ∧
  st.visited = (outKeys st.out).toFinset ∧
  (∀ k ∈ st.visited, k ∈ keysFinset byId) ∧
  (∀ t ∈ st.out, ∃ k, t.id = some k ∧ k ∈ st.visited)

/-- Dependency order of an emitted list: wherever a task sits, every dependency
of it that is present in `by_id` was emitted earlier. -/
def DepOrder (byId : List (String × PTask)) (out : List PTask) : Prop :=
  ∀ pre t post, out = pre ++ t :: post → ∀ d ∈ t.depends_on,
    (lookupA byId d).isSome = true → ∃ t' ∈ pre, t'.id = some d

/-- A concrete two-task acyclic plan for the C3 witness. -/
def c3Tasks : List PTask :=
  [{ id := some "a" }, { id := some "b", depends_on := ["a"] }]

/-! ## Theorems -/

theorem lexLe_total (a b : List Char) : lexLe a b = true ∨ lexLe b a = true := by
  induction a generalizing b with
  | nil => left; rfl
  | cons x xs ih =>
    cases b with
    | nil => right; rfl
    | cons y ys =>
      rcases lt_trichotomy x y with h | h | h
      · left; simp [lexLe, h]
      · subst h
        rcases ih ys with h2 | h2
        · left; simp [lexLe, lt_irrefl, h2]
        · right; simp [lexLe, lt_irrefl, h2]
      · right; simp [lexLe, h]

theorem lexLe_antisymm {a b : List Char} (h1 : lexLe a b = true)
    (h2 : lexLe b a = true) : a = b := by
  induction a generalizing b with
  | nil =>
    cases b with
    | nil => rfl
    | cons y ys => simp [lexLe] at h2
  | cons x xs ih =>
    cases b with
    | nil => simp [lexLe] at h1
    | cons y ys =>
      rcases lt_trichotomy x y with h | h | h
      · simp [lexLe, h, not_lt_of_gt h] at h2
      · subst h
        simp only [lexLe, lt_irrefl, if_false] at h1 h2
        rw [ih h1 h2]
      · simp [lexLe, h, not_lt_of_gt h] at h1

theorem lexLe_trans {a b c : List Char} (h1 : lexLe a b = true)
    (h2 : lexLe b c = true) : lexLe a c = true := by
  induction a generalizing b c with
  | nil => rfl
  | cons x xs ih =>
    cases b with
    | nil => simp [lexLe] at h1
    | cons y ys =>
      cases c with
      | nil => simp [lexLe] at h2
      | cons z zs =>
        rcases lt_trichotomy x y with hxy | hxy | hxy
        · rcases lt_trichotomy y z with hyz | hyz | hyz
          · simp [lexLe, lt_trans hxy hyz]
          · subst hyz; simp [lexLe, hxy]
          · simp [lexLe, hyz, not_lt_of_gt hyz] at h2
        · subst hxy
          rcases lt_trichotomy x z with hyz | hyz | hyz
          · simp [lexLe, hyz]
          · subst hyz
            simp only [lexLe, lt_irrefl, if_false] at h1 h2 ⊢
            exact ih h1 h2
          · simp [lexLe, hyz, not_lt_of_gt hyz] at h2
        · simp [lexLe, hxy, not_lt_of_gt hxy] at h1

theorem strLe_total (a b : String) : strLe a b = true ∨ strLe b a = true :=
  lexLe_total a.data b.data

theorem strLe_antisymm {a b : String} (h1 : strLe a b = true)
    (h2 : strLe b a = true) : a = b := by
  cases a; cases b
  exact congrArg _ (lexLe_antisymm h1 h2)

theorem strLe_trans {a b c : String} (h1 : strLe a b = true)
    (h2 : strLe b c = true) : strLe a c = true :=
  lexLe_trans h1 h2

theorem mem_insertField {x p : String × JValue} {l : List (String × JValue)} :
    x ∈ insertField p l ↔ x = p ∨ x ∈ l := by
  induction l with
  | nil => simp [insertField]
  | cons q rest ih =>
    by_cases h : strLe p.1 q.1 = true
    · simp [insertField, h, or_comm, or_assoc, or_left_comm]
    · simp [insertField, h, ih, or_comm, or_assoc, or_left_comm]

theorem insertField_perm (p : String × JValue) (l : List (String × JValue)) :
    (insertField p l).Perm (p :: l) := by
  induction l with
  | nil => simp [insertField]
  | cons q rest ih =>
    by_cases h : strLe p.1 q.1 = true
    · simp [insertField, h]
    · simp only [insertField, h, if_false]
      exact (ih.cons q).trans (List.Perm.swap p q rest)

theorem sortFields_perm (l : List (String × JValue)) : (sortFields l).Perm l := by
  induction l with
  | nil => simp [sortFields]
  | cons p rest ih =>
    exact (insertField_perm p (sortFields rest)).trans (ih.cons p)

theorem insertField_pairwise {p : String × JValue} {l : List (String × JValue)}
    (hl : l.Pairwise leKey) : (insertField p l).Pairwise leKey := by
  induction l with
  | nil => simp [insertField, List.Pairwise]
  | cons q rest ih =>
    rcases List.pairwise_cons.mp hl with ⟨hq, hrest⟩
    by_cases h : strLe p.1 q.1 = true
    · have he : insertField p (q :: rest) = p :: q :: rest := by
        simp [insertField, h]
      rw [he]
      refine List.pairwise_cons.mpr ⟨?_, hl⟩
      intro x hx
      rcases List.mem_cons.mp hx with hx | hx
      · subst hx; exact h
      · exact strLe_trans h (hq x hx)
    · have hqp : strLe q.1 p.1 = true := by
        rcases strLe_total p.1 q.1 with h1 | h1
        · exact absurd h1 h
        · exact h1
      simp only [insertField, h, if_false]
      refine List.pairwise_cons.mpr ⟨?_, ih hrest⟩
      intro x hx
      rcases mem_insertField.mp hx with hx | hx
      · subst hx; exact hqp
      · exact hq x hx

theorem sortFields_pairwise (l : List (String × JValue)) :
    (sortFields l).Pairwise leKey := by
  induction l with
  | nil => simp [sortFields, List.Pairwise]
  | cons p rest ih => exact insertField_pairwise ih

theorem canonJFields_eq_map (l : List (String × JValue)) :
    canonJFields l = l.map (fun p => (p.1, canonJValue p.2)) := by
  induction l with
  | nil => rfl
  | cons p rest ih => cases p; simp [canonJFields, ih]

/-- Two permuted field lists with the same (duplicate-free) key set have the
same canonical sort: both sorts are permutations of each other, both are
sorted by key, and with no duplicate keys the sorted order is strict, hence
unique. -/
theorem sortFields_eq_of_perm {l₁ l₂ : List (String × JValue)}
    (hperm : l₁.Perm l₂) (hnd : (l₁.map Prod.fst).Nodup) :
    sortFields l₁ = sortFields l₂ := by
  have hp : (sortFields l₁).Perm (sortFields l₂) :=
    (sortFields_perm l₁).trans (hperm.trans (sortFields_perm l₂).symm)
  have hnd1 : ((sortFields l₁).map Prod.fst).Nodup :=
    (((sortFields_perm l₁).map Prod.fst).nodup_iff).mpr hnd
  have hnd2 : ((sortFields l₂).map Prod.fst).Nodup :=
    ((hp.map Prod.fst).nodup_iff).mp hnd1
  have hne1 : (sortFields l₁).Pairwise (fun a b => a.1 ≠ b.1) :=
    List.pairwise_map.mp hnd1
  have hne2 : (sortFields l₂).Pairwise (fun a b => a.1 ≠ b.1) :=
    List.pairwise_map.mp hnd2
  have hs1 : (sortFields l₁).Pairwise (fun a b : String × JValue => leKey a b ∧ a.1 ≠ b.1) :=
    (sortFields_pairwise l₁).and hne1
  have hs2 : (sortFields l₂).Pairwise (fun a b : String × JValue => leKey a b ∧ a.1 ≠ b.1) :=
    (sortFields_pairwise l₂).and hne2
  haveI : IsAntisymm (String × JValue) (fun a b => leKey a b ∧ a.1 ≠ b.1) :=
    ⟨fun _ _ h1 h2 => absurd (strLe_antisymm h1.1 h2.1) h1.2⟩
  exact List.eq_of_perm_of_sorted hp hs1 hs2

/-- C5: For every tool name and finite argument mapping, `make_cache_key`
is invariant under permutation of the keys of `args` (the mapping has no
duplicate keys, as a Python dict), and the key has the form `tool:json`
where the json part serializes `args` with keys sorted and the deterministic
separators `(",", ":")`. -/
theorem C5_cache_key_canonical (t : String) (l₁ l₂ : ArgsMap)
    (hnd : (l₁.map Prod.fst).Nodup) (hperm : l₁.Perm l₂) :
    make_cache_key t l₁ = make_cache_key t l₂ ∧
    make_cache_key t l₁ = t ++ ":" ++ serJValue (.obj (sortFields (canonJFields l₁))) := by
  constructor
  · have hmap : (canonJFields l₁).Perm (canonJFields l₂) := by
      rw [canonJFields_eq_map, canonJFields_eq_map]
      exact hperm.map _
    have hnd' : ((canonJFields l₁).map Prod.fst).Nodup := by
      rw [canonJFields_eq_map, List.map_map]
      exact hnd
    show t ++ ":" ++ serJValue (canonJValue (.obj l₁))
        = t ++ ":" ++ serJValue (canonJValue (.obj l₂))
    rw [canonJValue, canonJValue, sortFields_eq_of_perm hmap hnd']
  · rfl

/-- Witness for C5 at a concrete permuted pair of argument mappings. -/
theorem C5_witness :
    (([("b", JValue.num 1), ("a", JValue.str "x")].map Prod.fst).Nodup) ∧
    make_cache_key "weather.get" [("b", JValue.num 1), ("a", JValue.str "x")]
      = make_cache_key "weather.get" [("a", JValue.str "x"), ("b", JValue.num 1)] :=
  ⟨by decide,
    (C5_cache_key_canonical "weather.get" _ _ (by decide) (List.Perm.swap _ _ _)).1⟩

theorem lookupA_setItem_self {β : Type} (m : List (String × β)) (k : String) (v : β) :
    lookupA (setItem m k v) k = some v := by
  induction m with
  | nil => simp [setItem, lookupA]
  | cons p rest ih =>
    cases p with
    | mk k' w =>
      by_cases h : k' = k
      · simp [setItem, h, lookupA]
      · simp [setItem, h, lookupA, ih]

/-- C4: The session tool cache satisfies: `get_cached` returns a value iff an
entry for the key exists and (the ttl argument is null or `now − entry.ts ≤
ttl`), and the value returned is the stored one; immediately after
`set_cached(session, k, v)`, `get_cached(session, k, ttl=null)` returns `v`;
and when the entry's age exceeds the supplied ttl, `get_cached` returns
absent. -/
theorem C4_cache_get_set (now : ℚ) (store : SessionStore) (sid key : String)
    (ttl : Option ℚ) :
    (∀ v : JValue, get_cached_tool_result now store sid key ttl = some v ↔
      ∃ e, lookupA (tool_cache_of store sid) key = some e ∧ v = e.value ∧
        (ttl = none ∨ ∃ tl, ttl = some tl ∧ now - e.ts ≤ tl)) ∧
    (∀ (now' : ℚ) (v : JValue),
      get_cached_tool_result now' (set_cached_tool_result now store sid key v) sid key none
        = some v) ∧
    (∀ e tl, lookupA (tool_cache_of store sid) key = some e → ttl = some tl →
      now - e.ts > tl → get_cached_tool_result now store sid key ttl = none) := by
  refine ⟨?_, ?_, ?_⟩
  · intro v
    unfold get_cached_tool_result
    cases hl : lookupA (tool_cache_of store sid) key with
    | none => simp
    | some e =>
      cases ttl with
      | none => simp [eq_comm]
      | some tl =>
        by_cases h : now - e.ts > tl
        · simp only [h, if_true]
          constructor
          · intro hv; cases hv
          · rintro ⟨e', he', hv, htl | ⟨tl', htl', hle⟩⟩
            · cases htl
            · cases htl'
              cases he'
              exact absurd hle (not_le.mpr h)
        · simp only [h, if_false]
          constructor
          · rintro hv
            cases hv
            exact ⟨e, rfl, rfl, Or.inr ⟨tl, rfl, not_lt.mp h⟩⟩
          · rintro ⟨e', he', hv, _⟩
            cases he'
            rw [hv]
  · intro now' v
    unfold get_cached_tool_result set_cached_tool_result tool_cache_of
    rw [lookupA_setItem_self]
    simp [lookupA_setItem_self]
  · intro e tl hl htl hgt
    subst htl
    unfold get_cached_tool_result
    rw [hl]
    simp [hgt]

/-- Witness for C4 at a concrete store, key and ttl. -/
theorem C4_witness :
    (lookupA (tool_cache_of [("s", [("k", ⟨(3 : ℚ), JValue.num 7⟩)])] "s") "k"
        = some ⟨(3 : ℚ), JValue.num 7⟩ ∧ (some (10 : ℚ) = some (10 : ℚ)) ∧
        (10 : ℚ) - 3 > (5 : ℚ)) ∧
    (get_cached_tool_result 10 [("s", [("k", ⟨(3 : ℚ), JValue.num 7⟩)])] "s" "k" (some 5)
        = none ∧
      get_cached_tool_result 11
          (set_cached_tool_result 10 [("s", [("k", ⟨(3 : ℚ), JValue.num 7⟩)])] "s" "k"
            (JValue.str "v")) "s" "k" none
        = some (JValue.str "v")) := by
  refine ⟨⟨rfl, rfl, by norm_num⟩, ?_, ?_⟩
  · exact (C4_cache_get_set 10 [("s", [("k", ⟨(3 : ℚ), JValue.num 7⟩)])] "s" "k"
      (some 5)).2.2 ⟨(3 : ℚ), JValue.num 7⟩ 5 rfl rfl (by norm_num)
  · exact (C4_cache_get_set 10 [("s", [("k", ⟨(3 : ℚ), JValue.num 7⟩)])] "s" "k"
      (some 5)).2.1 11 (JValue.str "v")

/-- C9: For every corpus of size `n ≥ 1` and every term with document
frequency `0 ≤ df ≤ n`, the IDF value `ln(1 + (n − df + 0.5)/(df + 0.5))`
is non-negative. -/
theorem C9_idf_nonneg (n df : ℕ) (_hn : 1 ≤ n) (hdf : df ≤ n) : 0 ≤ bm25_idf n df := by
  unfold bm25_idf
  apply Real.log_nonneg
  have hc : (df : ℝ) ≤ (n : ℝ) := Nat.cast_le.mpr hdf
  have h1 : (0 : ℝ) ≤ (n : ℝ) - (df : ℝ) + 0.5 := by linarith
  have h2 : (0 : ℝ) < (df : ℝ) + 0.5 := by positivity
  have := div_nonneg h1 h2.le
  linarith

/-- Witness for C9 at a concrete corpus size and document frequency. -/
theorem C9_witness : (1 ≤ 3 ∧ 1 ≤ 3) ∧ 0 ≤ bm25_idf 3 1 :=
  ⟨⟨by decide, by decide⟩, C9_idf_nonneg 3 1 (by decide) (by decide)⟩

theorem overlapLoopMd_eq (overlap : Int) :
    ∀ (l : List MChunk) (out : List MChunk) (pt : List Char),
      overlapLoopMd overlap out pt l = out ++ specMd overlap pt l := by
  intro l
  induction l with
  | nil => intro out pt; simp [overlapLoopMd, specMd]
  | cons ch rest ih =>
    intro out pt
    by_cases h : pt = []
    · subst h
      simp only [overlapLoopMd, specMd, ne_eq, not_true_eq_false, if_false, reduceIte,
        List.nil_append]
      rw [ih]
      have : (⟨ch.text, ch.headingPath⟩ : MChunk) = ch := by cases ch; rfl
      simp [this]
    · simp only [overlapLoopMd, specMd, ne_eq, h, not_false_eq_true, if_true, reduceIte]
      rw [ih]
      simp

theorem overlapLoopFb_eq (overlap : Int) :
    ∀ (l : List (List Char)) (out : List (List Char)) (pt : List Char),
      overlapLoopFb overlap out pt l = out ++ specFb overlap pt l := by
  intro l
  induction l with
  | nil => intro out pt; simp [overlapLoopFb, specFb]
  | cons c rest ih =>
    intro out pt
    by_cases h : pt = []
    · subst h
      simp only [overlapLoopFb, specFb, ne_eq, not_true_eq_false, reduceIte, List.nil_append]
      rw [ih]
      simp
    · simp only [overlapLoopFb, specFb, ne_eq, h, not_false_eq_true, reduceIte]
      rw [ih]
      simp

theorem specMd_length (overlap : Int) :
    ∀ (l : List MChunk) (pt : List Char), (specMd overlap pt l).length = l.length := by
  intro l
  induction l with
  | nil => intro pt; rfl
  | cons ch rest ih => intro pt; simp [specMd, ih]

theorem specFb_length (overlap : Int) :
    ∀ (l : List (List Char)) (pt : List Char), (specFb overlap pt l).length = l.length := by
  intro l
  induction l with
  | nil => intro pt; rfl
  | cons c rest ih => intro pt; simp [specFb, ih]

theorem specMd_get_succ (overlap : Int) :
    ∀ (l : List MChunk) (pt : List Char) (i : Nat) (c c' : MChunk),
      l[i]? = some c → l[i + 1]? = some c' →
      (specMd overlap pt l)[i + 1]? = some ⟨overlapTail overlap c.text ++ c'.text, c'.headingPath⟩ := by
  intro l
  induction l with
  | nil => intro pt i c c' h; simp at h
  | cons ch rest ih =>
    intro pt i c c' h h'
    cases i with
    | zero =>
      simp only [List.getElem?_cons_zero, Option.some.injEq] at h
      subst h
      cases rest with
      | nil => simp at h'
      | cons d rest' =>
        simp only [List.getElem?_cons_succ, List.getElem?_cons_zero, Option.some.injEq] at h'
        subst h'
        simp [specMd]
    | succ j =>
      simp only [List.getElem?_cons_succ] at h h'
      simpa [specMd] using ih (overlapTail overlap ch.text) j c c' h h'

theorem specFb_get_succ (overlap : Int) :
    ∀ (l : List (List Char)) (pt : List Char) (i : Nat) (c c' : List Char),
      l[i]? = some c → l[i + 1]? = some c' →
      (specFb overlap pt l)[i + 1]? = some (overlapTail overlap c ++ c') := by
  intro l
  induction l with
  | nil => intro pt i c c' h; simp at h
  | cons ch rest ih =>
    intro pt i c c' h h'
    cases i with
    | zero =>
      simp only [List.getElem?_cons_zero, Option.some.injEq] at h
      subst h
      cases rest with
      | nil => simp at h'
      | cons d rest' =>
        simp only [List.getElem?_cons_succ, List.getElem?_cons_zero, Option.some.injEq] at h'
        subst h'
        simp [specFb]
    | succ j =>
      simp only [List.getElem?_cons_succ] at h h'
      simpa [specFb] using ih (overlapTail overlap ch) j c c' h h'

/-- C8: For both markdown and fallback chunking with `overlap > 0`, the
returned chunk `i` (for `i > 0`) equals the last `overlap` characters of chunk
`i−1` (the whole chunk when it is not longer than `overlap`) prepended to
chunk `i`'s own text (markdown metadata unchanged), chunk `0` is returned
unchanged, and with `overlap ≤ 0` or a single chunk the chunks are returned
unchanged. -/
theorem C8_overlap (overlap : Int) :
    (∀ chunks : List MChunk, overlap ≤ 0 ∨ chunks.length ≤ 1 →
      applyOverlapMd overlap chunks = chunks) ∧
    (∀ raw : List (List Char), ¬(0 < overlap ∧ 1 < raw.length) →
      applyOverlapFb overlap raw = raw) ∧
    (0 < overlap → ∀ chunks : List MChunk, 1 < chunks.length →
      (applyOverlapMd overlap chunks).length = chunks.length ∧
      (applyOverlapMd overlap chunks)[0]? = chunks[0]? ∧
      (∀ (i : Nat) (c c' : MChunk), chunks[i]? = some c → chunks[i + 1]? = some c' →
        (applyOverlapMd overlap chunks)[i + 1]?
          = some ⟨overlapTail overlap c.text ++ c'.text, c'.headingPath⟩)) ∧
    (0 < overlap → ∀ raw : List (List Char), 1 < raw.length →
      (applyOverlapFb overlap raw).length = raw.length ∧
      (applyOverlapFb overlap raw)[0]? = raw[0]? ∧
      (∀ (i : Nat) (c c' : List Char), raw[i]? = some c → raw[i + 1]? = some c' →
        (applyOverlapFb overlap raw)[i + 1]? = some (overlapTail overlap c ++ c'))) := by
  refine ⟨?_, ?_, ?_, ?_⟩
  · intro chunks h
    unfold applyOverlapMd
    simp [h]
  · intro raw h
    unfold applyOverlapFb
    simp [h]
  · intro hov chunks hlen
    have hguard : ¬(overlap ≤ 0 ∨ chunks.length ≤ 1) := by
      push_neg
      exact ⟨hov, hlen⟩
    have he : applyOverlapMd overlap chunks = specMd overlap [] chunks := by
      unfold applyOverlapMd
      rw [if_neg hguard, overlapLoopMd_eq]
      rfl
    refine ⟨?_, ?_, ?_⟩
    · rw [he, specMd_length]
    · rw [he]
      cases chunks with
      | nil => rfl
      | cons ch rest =>
        have : (⟨[] ++ ch.text, ch.headingPath⟩ : MChunk) = ch := by cases ch; rfl
        simp [specMd, this]
    · intro i c c' h h'
      rw [he]
      exact specMd_get_succ overlap chunks [] i c c' h h'
  · intro hov raw hlen
    have hguard : 0 < overlap ∧ 1 < raw.length := ⟨hov, hlen⟩
    have he : applyOverlapFb overlap raw = specFb overlap [] raw := by
      unfold applyOverlapFb
      rw [if_pos hguard, overlapLoopFb_eq]
      rfl
    refine ⟨?_, ?_, ?_⟩
    · rw [he, specFb_length]
    · rw [he]
      cases raw with
      | nil => rfl
      | cons c rest => simp [specFb]
    · intro i c c' h h'
      rw [he]
      exact specFb_get_succ overlap raw [] i c c' h h'

/-- Witness for C8 at `overlap = 2` on concrete chunks. -/
theorem C8_witness :
    ((0 : Int) < 2 ∧ 1 < ([⟨"abcd".data, "h"⟩, ⟨"ef".data, "g"⟩] : List MChunk).length) ∧
    (applyOverlapMd 2 [⟨"abcd".data, "h"⟩, ⟨"ef".data, "g"⟩])[1]?
      = some ⟨overlapTail 2 "abcd".data ++ "ef".data, "g"⟩ :=
  ⟨⟨by decide, by decide⟩,
    ((C8_overlap 2).2.2.1 (by decide) [⟨"abcd".data, "h"⟩, ⟨"ef".data, "g"⟩]
      (by decide)).2.2 0 ⟨"abcd".data, "h"⟩ ⟨"ef".data, "g"⟩ rfl rfl⟩

theorem mem_insertDesc {x c : Cand} {l : List Cand} :
    x ∈ insertDesc c l ↔ x = c ∨ x ∈ l := by
  induction l with
  | nil => simp [insertDesc]
  | cons d rest ih =>
    by_cases h : d.score ≤ c.score
    · simp [insertDesc, h, or_comm, or_assoc, or_left_comm]
    · simp [insertDesc, h, ih, or_comm, or_assoc, or_left_comm]

theorem insertDesc_perm (c : Cand) (l : List Cand) :
    (insertDesc c l).Perm (c :: l) := by
  induction l with
  | nil => simp [insertDesc]
  | cons d rest ih =>
    by_cases h : d.score ≤ c.score
    · simp [insertDesc, h]
    · simp only [insertDesc, h, if_false]
      exact (ih.cons d).trans (List.Perm.swap c d rest)

theorem sortByScoreDesc_perm (l : List Cand) : (sortByScoreDesc l).Perm l := by
  induction l with
  | nil => simp [sortByScoreDesc]
  | cons c rest ih => exact (insertDesc_perm c (sortByScoreDesc rest)).trans (ih.cons c)

theorem insertDesc_pairwise {c : Cand} {l : List Cand}
    (hl : l.Pairwise (fun a b => b.score ≤ a.score)) :
    (insertDesc c l).Pairwise (fun a b => b.score ≤ a.score) := by
  induction l with
  | nil => simp [insertDesc, List.Pairwise]
  | cons d rest ih =>
    rcases List.pairwise_cons.mp hl with ⟨hd, hrest⟩
    by_cases h : d.score ≤ c.score
    · have he : insertDesc c (d :: rest) = c :: d :: rest := by simp [insertDesc, h]
      rw [he]
      refine List.pairwise_cons.mpr ⟨?_, hl⟩
      intro x hx
      rcases List.mem_cons.mp hx with hx | hx
      · subst hx; exact h
      · exact le_trans (hd x hx) h
    · simp only [insertDesc, h, if_false]
      refine List.pairwise_cons.mpr ⟨?_, ih hrest⟩
      intro x hx
      rcases mem_insertDesc.mp hx with hx | hx
      · subst hx; exact le_of_lt (lt_of_not_ge h)
      · exact hd x hx

theorem sortByScoreDesc_pairwise (l : List Cand) :
    (sortByScoreDesc l).Pairwise (fun a b => b.score ≤ a.score) := by
  induction l with
  | nil => simp [sortByScoreDesc, List.Pairwise]
  | cons c rest ih => exact insertDesc_pairwise ih

theorem filter_insertDesc (q : ℚ) (c : Cand) (l : List Cand) :
    (insertDesc c l).filter (fun d => d.score == q)
      = if c.score = q then c :: l.filter (fun d => d.score == q)
        else l.filter (fun d => d.score == q) := by
  induction l with
  | nil =>
    by_cases hc : c.score = q <;> simp [insertDesc, List.filter_cons, hc]
  | cons d rest ih =>
    by_cases h : d.score ≤ c.score
    · have he : insertDesc c (d :: rest) = c :: d :: rest := by simp [insertDesc, h]
      rw [he]
      by_cases hc : c.score = q <;> by_cases hd : d.score = q <;>
        simp [List.filter_cons, hc, hd]
    · have he : insertDesc c (d :: rest) = d :: insertDesc c rest := by simp [insertDesc, h]
      rw [he]
      have hlt : c.score < d.score := lt_of_not_ge h
      by_cases hc : c.score = q
      · have hd : ¬d.score = q := by
          rw [hc] at hlt
          exact fun hdq => absurd (hdq ▸ hlt) (lt_irrefl q)
        simp [List.filter_cons, hc, hd, ih]
      · by_cases hd : d.score = q <;> simp [List.filter_cons, hc, hd, ih]

theorem filter_sortByScoreDesc (q : ℚ) (l : List Cand) :
    (sortByScoreDesc l).filter (fun d => d.score == q) = l.filter (fun d => d.score == q) := by
  induction l with
  | nil => rfl
  | cons c rest ih =>
    by_cases hc : c.score = q <;>
      simp [sortByScoreDesc, filter_insertDesc, List.filter_cons, hc, ih]

/-- C6 counterexample: the relative order of two candidates with equal fused
score is not determined by their ids — it follows the order in which the
candidates entered the merged map.  The same two candidates (ids "a" and "b",
both with fused score 1) come out in either relative order depending on the
input order, so no comparator on id describes the tie-breaking. -/
theorem C6_counterexample :
    hybrid_rank 2 [⟨"b", 1⟩, ⟨"a", 1⟩] = [⟨"b", 1⟩, ⟨"a", 1⟩] ∧
    hybrid_rank 2 [⟨"a", 1⟩, ⟨"b", 1⟩] = [⟨"a", 1⟩, ⟨"b", 1⟩] := by
  constructor <;> rfl

/-- C6 (amended): Hybrid retrieval sorts the fused candidates by fused score in
descending order and returns the top `k`; the sort is stable, so candidates
with equal fused score keep their relative order from the merged candidate
list (vector-result order first, then BM25-only candidates) rather than being
ordered by id. -/
theorem C6_sort_amended (k : Nat) (cands : List Cand) :
    hybrid_rank k cands = (sortByScoreDesc cands).take k ∧
    (sortByScoreDesc cands).Perm cands ∧
    (sortByScoreDesc cands).Pairwise (fun a b => b.score ≤ a.score) ∧
    (∀ q : ℚ, (sortByScoreDesc cands).filter (fun d => d.score == q)
      = cands.filter (fun d => d.score == q)) :=
  ⟨rfl, sortByScoreDesc_perm cands, sortByScoreDesc_pairwise cands,
    fun q => filter_sortByScoreDesc q cands⟩

theorem execStep_classify (env : ExecEnv) (fill : FillFn) (replan : ReplanFn) (mR : Nat)
    (s : ExecState) :
    (∃ r, execStep env fill replan mR s = .done r) ∨
    (∃ e, execStep env fill replan mR s = .raised e) ∨
    (∃ s', execStep env fill replan mR s = .next s' ∧ s.i < s.current_tasks.length ∧
      s'.current_tasks = s.current_tasks ∧ s'.replans = s.replans ∧ s'.i = s.i + 1) ∨
    (∃ s', execStep env fill replan mR s = .next s' ∧ s.i < s.current_tasks.length ∧
      s.replans < mR ∧ s'.replans = s.replans + 1 ∧ s'.i = 0) := by
  unfold execStep
  by_cases h : s.i < s.current_tasks.length
  · simp only [dif_pos h]
    split
    · split
      · right; left; exact ⟨_, rfl⟩
      · split
        · right; right; left
          exact ⟨_, rfl, h, rfl, rfl, rfl⟩
        · split
          · right; right; left
            exact ⟨_, rfl, h, rfl, rfl, rfl⟩
          · split
            · split
              · split
                · right; right; right
                  refine ⟨_, rfl, h, ?_, rfl, rfl⟩
                  assumption
                · right; right; left
                  exact ⟨_, rfl, h, rfl, rfl, rfl⟩
              · right; right; left
                exact ⟨_, rfl, h, rfl, rfl, rfl⟩
            · right; right; left
              exact ⟨_, rfl, h, rfl, rfl, rfl⟩
    · right; right; left
      exact ⟨_, rfl, h, rfl, rfl, rfl⟩
  · simp only [dif_neg h]
    left; exact ⟨_, rfl⟩

theorem execLoopFuel_halts (env : ExecEnv) (fill : FillFn) (replan : ReplanFn) (mR : Nat) :
    ∀ (b n : Nat) (s : ExecState), mR - s.replans ≤ b → s.current_tasks.length - s.i ≤ n →
      ∃ fuel r, execLoopFuel env fill replan mR fuel s = some r := by
  intro b
  induction b with
  | zero =>
    intro n
    induction n with
    | zero =>
      intro s hb hn
      rcases execStep_classify env fill replan mR s with
        ⟨r, hr⟩ | ⟨e, he⟩ | ⟨s', hs, hlt, hct, hrep, hi⟩ | ⟨s', hs, hlt, hrep, hrep', hi⟩
      · exact ⟨1, .ok r, by simp [execLoopFuel, hr]⟩
      · exact ⟨1, .error e, by simp [execLoopFuel, he]⟩
      · omega
      · omega
    | succ m ihm =>
      intro s hb hn
      rcases execStep_classify env fill replan mR s with
        ⟨r, hr⟩ | ⟨e, he⟩ | ⟨s', hs, hlt, hct, hrep, hi⟩ | ⟨s', hs, hlt, hrep, hrep', hi⟩
      · exact ⟨1, .ok r, by simp [execLoopFuel, hr]⟩
      · exact ⟨1, .error e, by simp [execLoopFuel, he]⟩
      · obtain ⟨fuel, r, hf⟩ := ihm s' (by omega) (by rw [hct, hi]; omega)
        exact ⟨fuel + 1, r, by simp [execLoopFuel, hs, hf]⟩
      · omega
  | succ b ihb =>
    intro n
    induction n with
    | zero =>
      intro s hb hn
      rcases execStep_classify env fill replan mR s with
        ⟨r, hr⟩ | ⟨e, he⟩ | ⟨s', hs, hlt, hct, hrep, hi⟩ | ⟨s', hs, hlt, hrep, hrep', hi⟩
      · exact ⟨1, .ok r, by simp [execLoopFuel, hr]⟩
      · exact ⟨1, .error e, by simp [execLoopFuel, he]⟩
      · omega
      · omega
    | succ m ihm =>
      intro s hb hn
      rcases execStep_classify env fill replan mR s with
        ⟨r, hr⟩ | ⟨e, he⟩ | ⟨s', hs, hlt, hct, hrep, hi⟩ | ⟨s', hs, hlt, hrep, hrep', hi⟩
      · exact ⟨1, .ok r, by simp [execLoopFuel, hr]⟩
      · exact ⟨1, .error e, by simp [execLoopFuel, he]⟩
      · obtain ⟨fuel, r, hf⟩ := ihm s' (by omega) (by rw [hct, hi]; omega)
        exact ⟨fuel + 1, r, by simp [execLoopFuel, hs, hf]⟩
      · obtain ⟨fuel, r, hf⟩ := ihb s'.current_tasks.length s' (by omega) (by omega)
        exact ⟨fuel + 1, r, by simp [execLoopFuel, hs, hf]⟩

/-- C2: `execute_plan` terminates for every finite task list and every behavior
of the fill and replan delegates and of the downstream services: the loop
reaches a return value (or a propagated exception) with some finite fuel.  The
mechanism, captured by the helper `execStep_classify`, is that each loop
iteration either finishes, raises, strictly advances the index over an
unchanged task list with an unchanged replan count, or — only while
`replans < max_replans` — installs a delegate-provided non-empty task list,
restarting at position 0 with `replans` incremented, so at most `max_replans`
replacements ever happen. -/
theorem C2_execute_plan_terminates (env : ExecEnv) (fill : FillFn) (replan : ReplanFn)
    (max_replans : Nat) (tasks : List PTask) (store : SessionStore) :
    ∃ (fuel : Nat) (r : Except String ExecResult),
      execute_plan env fill replan max_replans tasks store fuel = some r := by
  obtain ⟨fuel, r, h⟩ := execLoopFuel_halts env fill replan max_replans
    max_replans tasks.length (initExecState tasks store)
    (by simp [initExecState]) (by simp [initExecState])
  exact ⟨fuel, r, h⟩

/-- C1 (code bug): `execute_plan` invokes the argument-fill delegate with three
positional arguments — `fill_args_fn(tool, self.tool_schema(tool),
list(observations))` — but the agentic runtime binds `fill_args(tool, schema)`,
a function of two positional parameters.  For a plan containing a task whose
tool is a real tool with an empty args mapping, the invocation raises
`TypeError` (outside any try block), which propagates out of `execute_plan`
instead of obtaining args and proceeding with the task, whatever the LLM-backed
body, the environment and the replan delegate are. -/
theorem C1_fill_args_arity_type_error (f : String → Schema → ArgsMap)
    (env : ExecEnv) (replan : ReplanFn) :
    execute_plan env (agentic_fill_args f) replan 2
        [{ id := some "t1", text := some "날씨를 조회한다", tool := some "weather.get",
           args := some [] }] [] 1
      = some (.error "TypeError: fill_args() takes 2 positional arguments but 3 were given") :=
  rfl

/-- C10: Tool-call failure is atomic with respect to the session tool cache:
when the downstream call raises, the loop step appends exactly one observation
carrying the error string and writes nothing to the cache, so the session
store — in particular the entry for that `(tool, canonical args)` key — is
exactly what it was before the call, and a later identical lookup in the same
session behaves exactly as before the failed call, so an identical
re-invocation calls the downstream again rather than reading a cached value. -/
theorem C10_error_atomic_cache (env : ExecEnv) (fill : FillFn) (replan : ReplanFn)
    (mR : Nat) (s : ExecState) (t : PTask) (e : String)
    (h : s.i < s.current_tasks.length)
    (ht : s.current_tasks.get ⟨s.i, h⟩ = t)
    (htool : task_tool t ≠ "" ∧ task_tool t ≠ "none")
    (hargs : (task_args t).isEmpty = false)
    (hmiss : get_cached_tool_result (env.clock s.ticks) s.store env.session_id
        (make_cache_key (task_tool t) (task_args t))
        (tool_ttl env.tools (task_tool t)) = none)
    (herr : env.call_tool (task_tool t) (task_args t) = .error e) :
    ∃ s', execStep env fill replan mR s = .next s' ∧
      s'.store = s.store ∧
      s'.observations = s.observations
        ++ [.errorResult t.id (task_tool t) (task_args t) e] ∧
      ∀ (now : ℚ) (ttl : Option ℚ) (key : String),
        get_cached_tool_result now s'.store env.session_id key ttl
          = get_cached_tool_result now s.store env.session_id key ttl := by
  unfold execStep
  rw [dif_pos h]
  simp only [ht, if_pos htool, hargs, Bool.false_eq_true, if_false, hmiss, herr]
  rcases replan with _ | rf
  · exact ⟨_, rfl, rfl, rfl, fun now ttl key => rfl⟩
  · by_cases hrep : s.replans < mR
    · simp only [if_pos hrep]
      rcases hout : rf s.current_tasks
          (s.observations ++ [.errorResult t.id (task_tool t) (task_args t) e]) with _ | ts
      · simp only [hout]
        exact ⟨_, rfl, rfl, rfl, fun now ttl key => rfl⟩
      · cases ts with
        | nil =>
          simp only [hout]
          exact ⟨_, rfl, rfl, rfl, fun now ttl key => rfl⟩
        | cons t0 ts' =>
          simp only [hout]
          exact ⟨_, rfl, rfl, rfl, fun now ttl key => rfl⟩
    · simp only [if_neg hrep]
      exact ⟨_, rfl, rfl, rfl, fun now ttl key => rfl⟩

/-- Witness for C10 at a concrete environment, task and empty session store. -/
theorem C10_witness :
    (task_tool c10Task ≠ "" ∧ task_tool c10Task ≠ "none") ∧
    ∃ s', execStep c10Env (FillFn.threeParams fun _ _ _ => []) none 2
        (initExecState [c10Task] []) = .next s' ∧
      s'.store = (initExecState [c10Task] []).store ∧
      s'.observations = (initExecState [c10Task] []).observations
        ++ [.errorResult c10Task.id (task_tool c10Task) (task_args c10Task) "boom"] ∧
      ∀ (now : ℚ) (ttl : Option ℚ) (key : String),
        get_cached_tool_result now s'.store c10Env.session_id key ttl
          = get_cached_tool_result now (initExecState [c10Task] []).store
              c10Env.session_id key ttl :=
  ⟨⟨by decide, by decide⟩,
    C10_error_atomic_cache c10Env (FillFn.threeParams fun _ _ _ => []) none 2
      (initExecState [c10Task] []) c10Task "boom"
      (by decide) rfl ⟨by decide, by decide⟩ rfl rfl rfl⟩

/-- C7 (code bug): in the rule-based streaming path, a weather request with
notification produces a to-do list of six tasks but only five `completed`
increments (the "compose the message for the team" step has no increment), so
the final event — which does carry `final` and `done=true` — reports
`completed = 5` while `len(todo) = 6`, contradicting the claimed
`completed = len(todo)`.  (The agentic path and the other rule-based branches
do emit `completed = len(todo)` literally.) -/
theorem C7_stream_final_event_bug :
    (stream_rule_based c7Env "서울 날씨를 슬랙으로 알려줘" c7Analysis).2 = none ∧
    ∃ ev : StreamEvent,
      ((stream_rule_based c7Env "서울 날씨를 슬랙으로 알려줘" c7Analysis).1).getLast?
        = some ev ∧
      ev.done = true ∧ ev.final.isSome = true ∧ ev.todo.length = 6 ∧ ev.completed = 5 :=
  ⟨rfl, ⟨_, rfl, rfl, rfl, rfl, rfl⟩⟩

/-- C3 counterexample: the plan `[r, p, q]` with `r` depending on `[q, p]` and
`p`, `q` independent (no dependencies at all, and nothing reachable between
them) has an acyclic dependency graph, yet the sort emits `q` before `p` —
the DFS pulls `r`'s dependencies in in the order of `r`'s dependency list —
so the sort does not preserve the plan's insertion order among independent
tasks. -/
theorem C3_counterexample :
    _agentic_topo_sort
        [{ id := some "r", depends_on := ["q", "p"] },
         { id := some "p" }, { id := some "q" }]
      = [{ id := some "q" }, { id := some "p" },
         { id := some "r", depends_on := ["q", "p"] }] := rfl

theorem topoDfs_succ (byId : List (String × PTask)) (fuel : Nat) (tid : String)
    (st : TopoState) :
    topoDfs byId (fuel + 1) tid st =
      if tid ∈ st.visited then st
      else if tid ∈ st.visiting then st
      else
        match lookupA byId tid with
        | none => { st with visited := insert tid st.visited }
        | some t =>
            let st2 := topoDfsFold byId fuel t.depends_on
              { st with visiting := insert tid st.visiting }
            { st2 with
              visiting := st2.visiting.erase tid,
              visited := insert tid st2.visited,
              out := st2.out ++ [t] } := rfl

theorem topoDfsFold_nil (byId : List (String × PTask)) (fuel : Nat) (st : TopoState) :
    topoDfsFold byId fuel [] st = st := rfl

theorem topoDfsFold_cons (byId : List (String × PTask)) (fuel : Nat) (d : String)
    (ds : List String) (st : TopoState) :
    topoDfsFold byId fuel (d :: ds) st
      = topoDfsFold byId fuel ds
          (if (lookupA byId d).isSome then topoDfs byId fuel d st else st) := by
  unfold topoDfsFold
  rw [List.foldl_cons]

theorem lookupA_mem {β : Type} {m : List (String × β)} {k : String} {v : β}
    (h : lookupA m k = some v) : (k, v) ∈ m := by
  induction m with
  | nil => cases h
  | cons p rest ih =>
    cases p with
    | mk k' w =>
      by_cases hk : k' = k
      · subst hk
        have h' : some w = some v := by simpa [lookupA] using h
        cases h'
        exact List.mem_cons_self _ _
      · simp only [lookupA, if_neg hk] at h
        exact List.mem_cons_of_mem _ (ih h)

theorem lookupA_isSome_iff {β : Type} (m : List (String × β)) (k : String) :
    (lookupA m k).isSome = true ↔ k ∈ m.map Prod.fst := by
  induction m with
  | nil => simp [lookupA]
  | cons p rest ih =>
    cases p with
    | mk k' w =>
      by_cases hk : k' = k
      · subst hk; simp [lookupA]
      · simp [lookupA, hk, ih, Ne.symm hk]

theorem mem_keysFinset_iff (byId : List (String × PTask)) (k : String) :
    k ∈ keysFinset byId ↔ (lookupA byId k).isSome = true := by
  rw [keysFinset, List.mem_toFinset, lookupA_isSome_iff]

theorem mem_depsAll {byId : List (String × PTask)} {k : String} {t : PTask}
    (hmem : (k, t) ∈ byId) {d : String} (hd : d ∈ t.depends_on) :
    d ∈ depsAll byId := by
  induction byId with
  | nil => cases hmem
  | cons p rest ih =>
    rcases List.mem_cons.mp hmem with h | h
    · subst h
      exact List.mem_append_left _ hd
    · exact List.mem_append_right _ (ih h)

theorem lookupA_setItem {β : Type} (m : List (String × β)) (k k' : String) (v : β) :
    lookupA (setItem m k v) k' = if k = k' then some v else lookupA m k' := by
  induction m with
  | nil =>
    by_cases h : k = k' <;> simp [setItem, lookupA, h]
  | cons p rest ih =>
    cases p with
    | mk pk pv =>
      by_cases hp : pk = k
      · subst hp
        by_cases h : pk = k' <;> simp [setItem, lookupA, h, ih]
      · by_cases h : pk = k'
        · subst h
          have : ¬k = pk := fun hh => hp hh.symm
          simp [setItem, hp, lookupA, this]
        · simp [setItem, hp, lookupA, h, ih]

theorem setItem_keys {β : Type} (m : List (String × β)) (k : String) (v : β) :
    (setItem m k v).map Prod.fst
      = if k ∈ m.map Prod.fst then m.map Prod.fst else m.map Prod.fst ++ [k] := by
  induction m with
  | nil => simp [setItem]
  | cons p rest ih =>
    cases p with
    | mk pk pv =>
      by_cases hp : pk = k
      · subst hp; simp [setItem]
      · have : ¬k = pk := fun hh => hp hh.symm
        by_cases h : k ∈ rest.map Prod.fst <;>
          simp [setItem, hp, ih, h, this]

/-- The `by_id` dict has duplicate-free keys and every stored task carries the
key as its id. -/
theorem by_id_wf (tasks : List PTask) :
    ((by_id tasks).map Prod.fst).Nodup ∧
    ∀ k t, lookupA (by_id tasks) k = some t → t.id = some k := by
  have main : ∀ (l : List PTask) (m : List (String × PTask)),
      (m.map Prod.fst).Nodup → (∀ k t, lookupA m k = some t → t.id = some k) →
      ((l.foldl (fun m t =>
          match truthy_id t with
          | some k => setItem m k t
          | none => m) m).map Prod.fst).Nodup ∧
      ∀ k t, lookupA (l.foldl (fun m t =>
          match truthy_id t with
          | some k => setItem m k t
          | none => m) m) k = some t → t.id = some k := by
    intro l
    induction l with
    | nil => intro m h1 h2; exact ⟨h1, h2⟩
    | cons t rest ih =>
      intro m h1 h2
      rw [List.foldl_cons]
      cases hid : truthy_id t with
      | none => exact ih m h1 h2
      | some k =>
        have hidk : t.id = some k := by
          cases ht : t.id with
          | none => simp only [truthy_id, ht] at hid; cases hid
          | some s =>
            simp only [truthy_id, ht] at hid
            by_cases hs : s = ""
            · rw [if_pos hs] at hid; cases hid
            · rw [if_neg hs] at hid
              cases hid
              rfl
        refine ih _ ?_ ?_
        · rw [setItem_keys]
          by_cases h : k ∈ m.map Prod.fst
          · simpa [h] using h1
          · simp only [h, if_false]
            refine List.Nodup.append h1 (List.nodup_singleton k) ?_
            intro a ha hak
            rw [List.mem_singleton] at hak
            subst hak
            exact h ha
        · intro k' t' h'
          rw [lookupA_setItem] at h'
          by_cases hk : k = k'
          · rw [if_pos hk] at h'
            cases h'
            exact hk ▸ hidk
          · rw [if_neg hk] at h'
            exact h2 k' t' h'
  exact main tasks [] (by simp) (by intro k t h; cases h)

theorem outKeys_append (l₁ l₂ : List PTask) :
    outKeys (l₁ ++ l₂) = outKeys l₁ ++ outKeys l₂ := by
  unfold outKeys
  rw [List.filterMap_append]

theorem mem_outKeys {k : String} {l : List PTask} :
    k ∈ outKeys l ↔ ∃ t ∈ l, t.id = some k := by
  simp [outKeys, List.mem_filterMap]

theorem append_singleton_eq {α : Type} {l pre post : List α} {t x : α}
    (h : l ++ [x] = pre ++ t :: post) :
    (pre = l ∧ t = x ∧ post = []) ∨
    ∃ post', l = pre ++ t :: post' ∧ post = post' ++ [x] := by
  rcases List.eq_nil_or_concat post with hp | ⟨ys, y, hp⟩
  · subst hp
    rcases List.append_inj' h rfl with ⟨h1, h2⟩
    cases h2
    exact Or.inl ⟨h1.symm, rfl, rfl⟩
  · rw [List.concat_eq_append] at hp
    subst hp
    have h' : l ++ [x] = (pre ++ t :: ys) ++ [y] := by simpa using h
    rcases List.append_inj' h' rfl with ⟨h1, h2⟩
    cases h2
    exact Or.inr ⟨ys, by simpa using h1, rfl⟩

theorem topoExtends_rfl (st : TopoState) : TopoExtends st st :=
  ⟨rfl, subset_rfl, [], by simp⟩

theorem topoExtends_trans {a b c : TopoState} (h1 : TopoExtends a b)
    (h2 : TopoExtends b c) : TopoExtends a c := by
  rcases h1 with ⟨e1, e2, Δ1, e3⟩
  rcases h2 with ⟨g1, g2, Δ2, g3⟩
  exact ⟨g1.trans e1, e2.trans g2, Δ1 ++ Δ2, by rw [g3, e3, List.append_assoc]⟩

theorem topoDfsFold_extends_of (byId : List (String × PTask)) (fuel : Nat)
    (hdfs : ∀ tid st, TopoExtends st (topoDfs byId fuel tid st)) :
    ∀ (ds : List String) (st : TopoState), TopoExtends st (topoDfsFold byId fuel ds st) := by
  intro ds
  induction ds with
  | nil => intro st; rw [topoDfsFold_nil]; exact topoExtends_rfl st
  | cons d rest ih =>
    intro st
    rw [topoDfsFold_cons]
    by_cases h : (lookupA byId d).isSome = true
    · rw [if_pos h]
      exact topoExtends_trans (hdfs d st) (ih _)
    · rw [if_neg h]
      exact ih st

theorem topoDfs_extends (byId : List (String × PTask)) :
    ∀ (fuel : Nat) (tid : String) (st : TopoState),
      TopoExtends st (topoDfs byId fuel tid st) := by
  intro fuel
  induction fuel with
  | zero => intro tid st; exact topoExtends_rfl st
  | succ fuel ih =>
    intro tid st
    rw [topoDfs_succ]
    by_cases h1 : tid ∈ st.visited
    · rw [if_pos h1]; exact topoExtends_rfl st
    · rw [if_neg h1]
      by_cases h2 : tid ∈ st.visiting
      · rw [if_pos h2]; exact topoExtends_rfl st
      · rw [if_neg h2]
        cases hl : lookupA byId tid with
        | none =>
          simp only [hl]
          exact ⟨rfl, Finset.subset_insert _ _, [], by simp⟩
        | some t =>
          simp only [hl]
          rcases topoDfsFold_extends_of byId fuel ih t.depends_on
              { st with visiting := insert tid st.visiting } with ⟨e1, e2, Δ, e3⟩
          refine ⟨?_, ?_, Δ ++ [t], ?_⟩
          · show (topoDfsFold byId fuel t.depends_on
                { st with visiting := insert tid st.visiting }).visiting.erase tid
              = st.visiting
            rw [e1]
            exact Finset.erase_insert h2
          · intro x hx
            exact Finset.mem_insert_of_mem (e2 hx)
          · show (topoDfsFold byId fuel t.depends_on
                { st with visiting := insert tid st.visiting }).out ++ [t]
              = st.out ++ (Δ ++ [t])
            rw [e3]
            simp [List.append_assoc]

theorem topoDfs_marksVisited (byId : List (String × PTask)) (fuel : Nat) (tid : String)
    (st : TopoState) (hf : 1 ≤ fuel) (h2 : tid ∉ st.visiting) :
    tid ∈ (topoDfs byId fuel tid st).visited := by
  cases fuel with
  | zero => omega
  | succ fuel =>
    rw [topoDfs_succ]
    by_cases h1 : tid ∈ st.visited
    · rw [if_pos h1]
      exact h1
    · rw [if_neg h1, if_neg h2]
      cases hl : lookupA byId tid with
      | none => simp only [hl]; exact Finset.mem_insert_self _ _
      | some t => simp only [hl]; exact Finset.mem_insert_self _ _

theorem topoDfsFold_inv_of (byId : List (String × PTask)) (fuel : Nat)
    (hdfs : ∀ tid st, (lookupA byId tid).isSome = true → TopoInv byId st →
      TopoInv byId (topoDfs byId fuel tid st)) :
    ∀ (ds : List String) (st : TopoState), TopoInv byId st →
      TopoInv byId (topoDfsFold byId fuel ds st) := by
  intro ds
  induction ds with
  | nil => intro st h; rw [topoDfsFold_nil]; exact h
  | cons d rest ih =>
    intro st h
    rw [topoDfsFold_cons]
    by_cases hg : (lookupA byId d).isSome = true
    · rw [if_pos hg]
      exact ih _ (hdfs d st hg h)
    · rw [if_neg hg]
      exact ih st h

theorem topoInv_push (byId : List (String × PTask)) (tid : String) (st : TopoState)
    (h1 : tid ∉ st.visited) (hinv : TopoInv byId st) :
    TopoInv byId { st with visiting := insert tid st.visiting } := by
  rcases hinv with ⟨hJ, hnd, hvk, hkk, hout⟩
  refine ⟨?_, hnd, hvk, hkk, hout⟩
  rw [Finset.eq_empty_iff_forall_not_mem]
  intro x hx
  rw [Finset.mem_inter, Finset.mem_insert] at hx
  rcases hx with ⟨hx1 | hx1, hx2⟩
  · exact h1 (hx1 ▸ hx2)
  · rw [Finset.eq_empty_iff_forall_not_mem] at hJ
    exact hJ x (Finset.mem_inter.mpr ⟨hx1, hx2⟩)

theorem topoDfs_inv (byId : List (String × PTask))
    (hby : ∀ k t, lookupA byId k = some t → t.id = some k) :
    ∀ (fuel : Nat) (tid : String) (st : TopoState),
      (lookupA byId tid).isSome = true → TopoInv byId st →
      TopoInv byId (topoDfs byId fuel tid st) := by
  intro fuel
  induction fuel with
  | zero => intro tid st _ h; exact h
  | succ fuel ih =>
    intro tid st hsome hinv
    rw [topoDfs_succ]
    by_cases h1 : tid ∈ st.visited
    · rw [if_pos h1]; exact hinv
    · rw [if_neg h1]
      by_cases h2 : tid ∈ st.visiting
      · rw [if_pos h2]; exact hinv
      · rw [if_neg h2]
        cases hl : lookupA byId tid with
        | none => rw [hl] at hsome; cases hsome
        | some t =>
          simp only [hl]
          have hinv1 := topoInv_push byId tid st h1 hinv
          have hinv2 := topoDfsFold_inv_of byId fuel ih t.depends_on _ hinv1
          rcases topoDfsFold_extends_of byId fuel (topoDfs_extends byId fuel) t.depends_on
              { st with visiting := insert tid st.visiting } with ⟨e1, e2, Δ, e3⟩
          rcases hinv2 with ⟨hJ2, hnd2, hvk2, hkk2, hout2⟩
          have htid : t.id = some tid := hby tid t hl
          have htid2 : tid ∉ (topoDfsFold byId fuel t.depends_on
              { st with visiting := insert tid st.visiting }).visited := by
            intro hmem
            rw [Finset.eq_empty_iff_forall_not_mem] at hJ2
            refine hJ2 tid (Finset.mem_inter.mpr ⟨?_, hmem⟩)
            rw [e1]
            exact Finset.mem_insert_self _ _
          have houtkeys : outKeys ((topoDfsFold byId fuel t.depends_on
              { st with visiting := insert tid st.visiting }).out ++ [t])
              = outKeys (topoDfsFold byId fuel t.depends_on
                { st with visiting := insert tid st.visiting }).out ++ [tid] := by
            rw [outKeys_append]
            congr 1
            simp [outKeys, htid]
          refine ⟨?_, ?_, ?_, ?_, ?_⟩
          · rw [Finset.eq_empty_iff_forall_not_mem]
            intro x hx
            rw [Finset.mem_inter, Finset.mem_erase, Finset.mem_insert] at hx
            rcases hx with ⟨⟨hne, hx1⟩, hx2 | hx2⟩
            · exact hne hx2
            · rw [Finset.eq_empty_iff_forall_not_mem] at hJ2
              exact hJ2 x (Finset.mem_inter.mpr ⟨hx1, hx2⟩)
          · rw [houtkeys]
            refine List.Nodup.append hnd2 (List.nodup_singleton tid) ?_
            intro a ha hak
            rw [List.mem_singleton] at hak
            subst hak
            rw [hvk2, List.mem_toFinset] at htid2
            exact htid2 ha
          · rw [houtkeys, List.toFinset_append, hvk2]
            simp [Finset.insert_eq, Finset.union_comm]
          · intro k hk
            rw [Finset.mem_insert] at hk
            rcases hk with hk | hk
            · subst hk
              rw [mem_keysFinset_iff]
              exact hsome
            · exact hkk2 k hk
          · intro t' ht'
            rcases List.mem_append.mp ht' with ht' | ht'
            · rcases hout2 t' ht' with ⟨k, hk1, hk2⟩
              exact ⟨k, hk1, Finset.mem_insert_of_mem hk2⟩
            · rw [List.mem_singleton] at ht'
              subst ht'
              exact ⟨tid, htid, Finset.mem_insert_self _ _⟩

theorem topoDfsFold_delta_of (byId : List (String × PTask)) (fuel : Nat)
    (hdfs : ∀ tid st, ∃ Δ, (topoDfs byId fuel tid st).out = st.out ++ Δ ∧
      ∀ t' ∈ Δ, ∃ k, t'.id = some k ∧ k ∉ st.visited ∧ (k = tid ∨ k ∈ depsAll byId)) :
    ∀ (ds : List String) (st : TopoState),
      ∃ Δ, (topoDfsFold byId fuel ds st).out = st.out ++ Δ ∧
        ∀ t' ∈ Δ, ∃ k, t'.id = some k ∧ k ∉ st.visited ∧ (k ∈ ds ∨ k ∈ depsAll byId) := by
  intro ds
  induction ds with
  | nil =>
    intro st
    exact ⟨[], by simp [topoDfsFold_nil], by intro t' h; cases h⟩
  | cons d rest ih =>
    intro st
    rw [topoDfsFold_cons]
    by_cases hg : (lookupA byId d).isSome = true
    · rw [if_pos hg]
      rcases hdfs d st with ⟨Δ1, h1, h2⟩
      rcases ih (topoDfs byId fuel d st) with ⟨Δ2, g1, g2⟩
      rcases topoDfs_extends byId fuel d st with ⟨_, evis, _⟩
      refine ⟨Δ1 ++ Δ2, by rw [g1, h1, List.append_assoc], ?_⟩
      intro t' ht'
      rcases List.mem_append.mp ht' with ht' | ht'
      · rcases h2 t' ht' with ⟨k, hk1, hk2, hk3⟩
        exact ⟨k, hk1, hk2, by
          rcases hk3 with hk3 | hk3
          · exact Or.inl (hk3 ▸ List.mem_cons_self d rest)
          · exact Or.inr hk3⟩
      · rcases g2 t' ht' with ⟨k, hk1, hk2, hk3⟩
        refine ⟨k, hk1, fun hmem => hk2 (evis hmem), ?_⟩
        rcases hk3 with hk3 | hk3
        · exact Or.inl (List.mem_cons_of_mem d hk3)
        · exact Or.inr hk3
    · rw [if_neg hg]
      rcases ih st with ⟨Δ, g1, g2⟩
      refine ⟨Δ, g1, ?_⟩
      intro t' ht'
      rcases g2 t' ht' with ⟨k, hk1, hk2, hk3⟩
      refine ⟨k, hk1, hk2, ?_⟩
      rcases hk3 with hk3 | hk3
      · exact Or.inl (List.mem_cons_of_mem d hk3)
      · exact Or.inr hk3

theorem topoDfs_delta (byId : List (String × PTask))
    (hby : ∀ k t, lookupA byId k = some t → t.id = some k) :
    ∀ (fuel : Nat) (tid : String) (st : TopoState),
      ∃ Δ, (topoDfs byId fuel tid st).out = st.out ++ Δ ∧
        ∀ t' ∈ Δ, ∃ k, t'.id = some k ∧ k ∉ st.visited ∧ (k = tid ∨ k ∈ depsAll byId) := by
  intro fuel
  induction fuel with
  | zero =>
    intro tid st
    exact ⟨[], by simp [topoDfs], by intro t' h; cases h⟩
  | succ fuel ih =>
    intro tid st
    rw [topoDfs_succ]
    by_cases h1 : tid ∈ st.visited
    · rw [if_pos h1]
      exact ⟨[], by simp, by intro t' h; cases h⟩
    · rw [if_neg h1]
      by_cases h2 : tid ∈ st.visiting
      · rw [if_pos h2]
        exact ⟨[], by simp, by intro t' h; cases h⟩
      · rw [if_neg h2]
        cases hl : lookupA byId tid with
        | none =>
          simp only [hl]
          exact ⟨[], by simp, by intro t' h; cases h⟩
        | some t =>
          simp only [hl]
          rcases topoDfsFold_delta_of byId fuel ih t.depends_on
              { st with visiting := insert tid st.visiting } with ⟨Δ, g1, g2⟩
          refine ⟨Δ ++ [t], ?_, ?_⟩
          · show (topoDfsFold byId fuel t.depends_on
                { st with visiting := insert tid st.visiting }).out ++ [t]
              = st.out ++ (Δ ++ [t])
            rw [g1]
            simp [List.append_assoc]
          · intro t' ht'
            rcases List.mem_append.mp ht' with ht' | ht'
            · rcases g2 t' ht' with ⟨k, hk1, hk2, hk3⟩
              refine ⟨k, hk1, hk2, Or.inr ?_⟩
              rcases hk3 with hk3 | hk3
              · exact mem_depsAll (lookupA_mem hl) hk3
              · exact hk3
            · rw [List.mem_singleton] at ht'
              subst ht'
              exact ⟨tid, hby tid t' hl, h1, Or.inl rfl⟩

/-- Entering a fresh frame for a key strictly shrinks the unexplored key set. -/
theorem topo_card_decrease (byId : List (String × PTask)) (tid : String) (st : TopoState)
    (hsome : (lookupA byId tid).isSome = true) (h1 : tid ∉ st.visited)
    (h2 : tid ∉ st.visiting) :
    (keysFinset byId \ ((insert tid st.visiting) ∪ st.visited)).card
      < (keysFinset byId \ (st.visiting ∪ st.visited)).card := by
  apply Finset.card_lt_card
  rw [Finset.ssubset_iff_of_subset]
  · refine ⟨tid, ?_, ?_⟩
    · rw [Finset.mem_sdiff, Finset.mem_union]
      exact ⟨(mem_keysFinset_iff byId tid).mpr hsome, fun h => h.elim h2 h1⟩
    · rw [Finset.mem_sdiff]
      rintro ⟨-, hmem⟩
      exact hmem (Finset.mem_union_left _ (Finset.mem_insert_self _ _))
  · apply Finset.sdiff_subset_sdiff subset_rfl
    apply Finset.union_subset_union_left
    exact Finset.subset_insert _ _

/-- Any state extension can only shrink the unexplored key set. -/
theorem topo_card_mono (byId : List (String × PTask)) {st st' : TopoState}
    (h : TopoExtends st st') :
    (keysFinset byId \ (st'.visiting ∪ st'.visited)).card
      ≤ (keysFinset byId \ (st.visiting ∪ st.visited)).card := by
  apply Finset.card_le_card
  apply Finset.sdiff_subset_sdiff subset_rfl
  rw [h.1]
  exact Finset.union_subset_union_right h.2.1

/-- The DFS result does not depend on the fuel, once the fuel exceeds the
number of unexplored keys — i.e. the (unbounded) Python recursion terminates
with this very result. -/
theorem topoDfs_fuel_stable (byId : List (String × PTask)) :
    ∀ (fuel f2 : Nat) (tid : String) (st : TopoState),
      (keysFinset byId \ (st.visiting ∪ st.visited)).card < fuel →
      (keysFinset byId \ (st.visiting ∪ st.visited)).card < f2 →
      topoDfs byId fuel tid st = topoDfs byId f2 tid st := by
  intro fuel
  induction fuel with
  | zero => intro f2 tid st h; omega
  | succ fuel ih =>
    intro f2 tid st hc1 hc2
    cases f2 with
    | zero => omega
    | succ g =>
      rw [topoDfs_succ, topoDfs_succ]
      by_cases h1 : tid ∈ st.visited
      · rw [if_pos h1, if_pos h1]
      · rw [if_neg h1, if_neg h1]
        by_cases h2 : tid ∈ st.visiting
        · rw [if_pos h2, if_pos h2]
        · rw [if_neg h2, if_neg h2]
          cases hl : lookupA byId tid with
          | none => simp only [hl]
          | some t =>
            simp only [hl]
            have hsome : (lookupA byId tid).isSome = true := by rw [hl]; rfl
            have hdec := topo_card_decrease byId tid st hsome h1 h2
            have hfold : ∀ (ds : List String) (acc : TopoState),
                (keysFinset byId \ (acc.visiting ∪ acc.visited)).card < fuel →
                (keysFinset byId \ (acc.visiting ∪ acc.visited)).card < g →
                topoDfsFold byId fuel ds acc = topoDfsFold byId g ds acc := by
              intro ds
              induction ds with
              | nil => intro acc _ _; rw [topoDfsFold_nil, topoDfsFold_nil]
              | cons d rest ihd =>
                intro acc ha1 ha2
                rw [topoDfsFold_cons, topoDfsFold_cons]
                by_cases hg : (lookupA byId d).isSome = true
                · rw [if_pos hg, if_pos hg]
                  rw [ih g d acc ha1 ha2]
                  have hext := topoDfs_extends byId g d acc
                  have hmono := topo_card_mono byId hext
                  exact ihd _ (by omega) (by omega)
                · rw [if_neg hg, if_neg hg]
                  exact ihd acc ha1 ha2
            have hdec' : (keysFinset byId \
                (({ st with visiting := insert tid st.visiting } : TopoState).visiting ∪
                  ({ st with visiting := insert tid st.visiting } : TopoState).visited)).card
                < (keysFinset byId \ (st.visiting ∪ st.visited)).card := hdec
            rw [hfold t.depends_on { st with visiting := insert tid st.visiting }
              (by omega) (by omega)]

/-- Under a topological ranking of the dependency graph (which exists exactly
when the graph is acyclic), every `dfs` call preserves dependency order of the
emitted list, provided every id on the `visiting` stack out-ranks the id being
visited. -/
theorem topoDfs_depOrder (byId : List (String × PTask))
    (hby : ∀ k t, lookupA byId k = some t → t.id = some k)
    (rank : String → Nat)
    (hrank : ∀ k t, lookupA byId k = some t → ∀ d ∈ t.depends_on,
      (lookupA byId d).isSome = true → rank d < rank k) :
    ∀ (fuel : Nat) (tid : String) (st : TopoState),
      (keysFinset byId \ (st.visiting ∪ st.visited)).card < fuel →
      (lookupA byId tid).isSome = true →
      (∀ v ∈ st.visiting, rank tid < rank v) →
      TopoInv byId st → DepOrder byId st.out →
      DepOrder byId (topoDfs byId fuel tid st).out := by
  intro fuel
  induction fuel with
  | zero => intro tid st hc; omega
  | succ fuel ih =>
    intro tid st hc hsome hstack hinv hdep
    rw [topoDfs_succ]
    by_cases h1 : tid ∈ st.visited
    · rw [if_pos h1]; exact hdep
    · rw [if_neg h1]
      by_cases h2 : tid ∈ st.visiting
      · rw [if_pos h2]; exact hdep
      · rw [if_neg h2]
        cases hl : lookupA byId tid with
        | none => rw [hl] at hsome; cases hsome
        | some t =>
          simp only [hl]
          have hdec := topo_card_decrease byId tid st hsome h1 h2
          have hstack1 : ∀ d ∈ t.depends_on, (lookupA byId d).isSome = true →
              ∀ v ∈ (insert tid st.visiting : Finset String), rank d < rank v := by
            intro d hd hds v hv
            have hdtid : rank d < rank tid := hrank tid t hl d hd hds
            rcases Finset.mem_insert.mp hv with hv | hv
            · exact hv ▸ hdtid
            · exact lt_trans hdtid (hstack v hv)
          have hinv1 : TopoInv byId { st with visiting := insert tid st.visiting } :=
            topoInv_push byId tid st h1 hinv
          have hfold : ∀ (ds : List String) (acc : TopoState),
              (keysFinset byId \ (acc.visiting ∪ acc.visited)).card < fuel →
              (∀ d ∈ ds, (lookupA byId d).isSome = true →
                ∀ v ∈ acc.visiting, rank d < rank v) →
              TopoInv byId acc → DepOrder byId acc.out →
              DepOrder byId (topoDfsFold byId fuel ds acc).out ∧
              TopoInv byId (topoDfsFold byId fuel ds acc) ∧
              (∀ d ∈ ds, (lookupA byId d).isSome = true →
                d ∈ (topoDfsFold byId fuel ds acc).visited) := by
            intro ds
            induction ds with
            | nil =>
              intro acc _ _ hai had
              rw [topoDfsFold_nil]
              exact ⟨had, hai, by intro d hd; cases hd⟩
            | cons d rest ihd =>
              intro acc hac hstk hai had
              rw [topoDfsFold_cons]
              by_cases hg : (lookupA byId d).isSome = true
              · rw [if_pos hg]
                have hdvis : d ∉ acc.visiting := fun hmem =>
                  lt_irrefl (rank d) (hstk d (List.mem_cons_self d rest) hg d hmem)
                have hdord := ih d acc hac hg
                  (fun v hv => hstk d (List.mem_cons_self d rest) hg v hv) hai had
                have hext := topoDfs_extends byId fuel d acc
                have hmono := topo_card_mono byId hext
                have hinv' := topoDfs_inv byId hby fuel d acc hg hai
                have hmark := topoDfs_marksVisited byId fuel d acc (by omega) hdvis
                obtain ⟨hd1, hd2, hd3⟩ := ihd (topoDfs byId fuel d acc) (by omega)
                  (by
                    intro d' hd' hds' v hv
                    rw [hext.1] at hv
                    exact hstk d' (List.mem_cons_of_mem d hd') hds' v hv)
                  hinv' hdord
                refine ⟨hd1, hd2, ?_⟩
                intro d' hd' hds'
                rcases List.mem_cons.mp hd' with hd' | hd'
                · subst hd'
                  have hext2 := topoDfsFold_extends_of byId fuel
                    (topoDfs_extends byId fuel) rest (topoDfs byId fuel d' acc)
                  exact hext2.2.1 hmark
                · exact hd3 d' hd' hds'
              · rw [if_neg hg]
                obtain ⟨hd1, hd2, hd3⟩ := ihd acc hac
                  (fun d' hd' => hstk d' (List.mem_cons_of_mem d hd')) hai had
                refine ⟨hd1, hd2, ?_⟩
                intro d' hd' hds'
                rcases List.mem_cons.mp hd' with hd' | hd'
                · subst hd'
                  exact absurd hds' hg
                · exact hd3 d' hd' hds'
          have hdec' : (keysFinset byId \
              (({ st with visiting := insert tid st.visiting } : TopoState).visiting ∪
                ({ st with visiting := insert tid st.visiting } : TopoState).visited)).card
              < (keysFinset byId \ (st.visiting ∪ st.visited)).card := hdec
          obtain ⟨hdo2, hinv2, hdeps2⟩ := hfold t.depends_on
            { st with visiting := insert tid st.visiting } (by omega) hstack1 hinv1 hdep
          show DepOrder byId ((topoDfsFold byId fuel t.depends_on
            { st with visiting := insert tid st.visiting }).out ++ [t])
          intro pre t' post heq d hd hds
          rcases append_singleton_eq heq with ⟨hpre, ht', hpost⟩ | ⟨post', hsplit, hpost⟩
          · subst ht'
            have hdv : d ∈ (topoDfsFold byId fuel t'.depends_on
                { st with visiting := insert tid st.visiting }).visited :=
              hdeps2 d hd hds
            rcases hinv2 with ⟨-, -, hvk2, -, -⟩
            rw [hvk2, List.mem_toFinset] at hdv
            rcases mem_outKeys.mp hdv with ⟨t'', ht'', hid⟩
            subst hpre
            exact ⟨t'', ht'', hid⟩
          · exact hdo2 pre t' post' hsplit d hd hds

theorem topo_card_le (byId : List (String × PTask)) (st : TopoState) :
    (keysFinset byId \ (st.visiting ∪ st.visited)).card ≤ byId.length := by
  calc (keysFinset byId \ (st.visiting ∪ st.visited)).card
      ≤ (keysFinset byId).card := Finset.card_le_card Finset.sdiff_subset
    _ ≤ (byId.map Prod.fst).length := List.toFinset_card_le _
    _ = byId.length := List.length_map _ _

theorem topoFoldTop_extends (byId : List (String × PTask)) (fuel : Nat) :
    ∀ (ks : List String) (st : TopoState),
      TopoExtends st (ks.foldl (fun st tid => topoDfs byId fuel tid st) st) := by
  intro ks
  induction ks with
  | nil => intro st; exact topoExtends_rfl st
  | cons k rest ih =>
    intro st
    rw [List.foldl_cons]
    exact topoExtends_trans (topoDfs_extends byId fuel k st) (ih _)

theorem topoFoldTop_inv (byId : List (String × PTask))
    (hby : ∀ k t, lookupA byId k = some t → t.id = some k) (fuel : Nat) :
    ∀ (ks : List String) (st : TopoState),
      (∀ k ∈ ks, (lookupA byId k).isSome = true) → TopoInv byId st →
      TopoInv byId (ks.foldl (fun st tid => topoDfs byId fuel tid st) st) := by
  intro ks
  induction ks with
  | nil => intro st _ h; exact h
  | cons k rest ih =>
    intro st hks h
    rw [List.foldl_cons]
    exact ih _ (fun k' hk' => hks k' (List.mem_cons_of_mem k hk'))
      (topoDfs_inv byId hby fuel k st (hks k (List.mem_cons_self k rest)) h)

theorem topoFoldTop_marks (byId : List (String × PTask)) (fuel : Nat) (hf : 1 ≤ fuel) :
    ∀ (ks : List String) (st : TopoState), st.visiting = ∅ →
      ∀ k ∈ ks, k ∈ (ks.foldl (fun st tid => topoDfs byId fuel tid st) st).visited := by
  intro ks
  induction ks with
  | nil => intro st _ k hk; cases hk
  | cons k0 rest ih =>
    intro st hvis k hk
    rw [List.foldl_cons]
    rcases List.mem_cons.mp hk with hk | hk
    · subst hk
      have hmark := topoDfs_marksVisited byId fuel k st hf
        (by rw [hvis]; exact Finset.not_mem_empty k)
      exact (topoFoldTop_extends byId fuel rest _).2.1 hmark
    · exact ih _ (by rw [(topoDfs_extends byId fuel k0 st).1, hvis]) k hk

theorem topoFoldTop_depOrder (byId : List (String × PTask))
    (hby : ∀ k t, lookupA byId k = some t → t.id = some k)
    (rank : String → Nat)
    (hrank : ∀ k t, lookupA byId k = some t → ∀ d ∈ t.depends_on,
      (lookupA byId d).isSome = true → rank d < rank k)
    (fuel : Nat) (hf : byId.length < fuel) :
    ∀ (ks : List String) (st : TopoState),
      (∀ k ∈ ks, (lookupA byId k).isSome = true) → st.visiting = ∅ →
      TopoInv byId st → DepOrder byId st.out →
      DepOrder byId (ks.foldl (fun st tid => topoDfs byId fuel tid st) st).out := by
  intro ks
  induction ks with
  | nil => intro st _ _ _ h; exact h
  | cons k rest ih =>
    intro st hks hvis hinv hdep
    rw [List.foldl_cons]
    have hcard : (keysFinset byId \ (st.visiting ∪ st.visited)).card < fuel :=
      lt_of_le_of_lt (topo_card_le byId st) hf
    have hstep := topoDfs_depOrder byId hby rank hrank fuel k st hcard
      (hks k (List.mem_cons_self k rest))
      (by intro v hv; rw [hvis] at hv; cases Finset.not_mem_empty v hv) hinv hdep
    exact ih _ (fun k' hk' => hks k' (List.mem_cons_of_mem k hk'))
      (by rw [(topoDfs_extends byId fuel k st).1, hvis])
      (topoDfs_inv byId hby fuel k st (hks k (List.mem_cons_self k rest)) hinv) hstep

theorem topoFoldTop_delta (byId : List (String × PTask))
    (hby : ∀ k t, lookupA byId k = some t → t.id = some k) (fuel : Nat) :
    ∀ (ks : List String) (st : TopoState),
      ∃ Δ, (ks.foldl (fun st tid => topoDfs byId fuel tid st) st).out = st.out ++ Δ ∧
        ∀ t' ∈ Δ, ∃ k, t'.id = some k ∧ k ∉ st.visited ∧ (k ∈ ks ∨ k ∈ depsAll byId) := by
  intro ks
  induction ks with
  | nil =>
    intro st
    exact ⟨[], by simp, by intro t' h; cases h⟩
  | cons k0 rest ih =>
    intro st
    rw [List.foldl_cons]
    rcases topoDfs_delta byId hby fuel k0 st with ⟨Δ1, h1, h2⟩
    rcases ih (topoDfs byId fuel k0 st) with ⟨Δ2, g1, g2⟩
    have hext := topoDfs_extends byId fuel k0 st
    refine ⟨Δ1 ++ Δ2, by rw [g1, h1, List.append_assoc], ?_⟩
    intro t' ht'
    rcases List.mem_append.mp ht' with ht' | ht'
    · rcases h2 t' ht' with ⟨k, hk1, hk2, hk3⟩
      refine ⟨k, hk1, hk2, ?_⟩
      rcases hk3 with hk3 | hk3
      · exact Or.inl (hk3 ▸ List.mem_cons_self k0 rest)
      · exact Or.inr hk3
    · rcases g2 t' ht' with ⟨k, hk1, hk2, hk3⟩
      refine ⟨k, hk1, fun hmem => hk2 (hext.2.1 hmem), ?_⟩
      rcases hk3 with hk3 | hk3
      · exact Or.inl (List.mem_cons_of_mem k0 hk3)
      · exact Or.inr hk3

theorem topoFoldTop_fuel_stable (byId : List (String × PTask)) (fuel f2 : Nat)
    (h1 : byId.length < fuel) (h2 : byId.length < f2) :
    ∀ (ks : List String) (st : TopoState),
      ks.foldl (fun st tid => topoDfs byId fuel tid st) st
        = ks.foldl (fun st tid => topoDfs byId f2 tid st) st := by
  intro ks
  induction ks with
  | nil => intro st; rfl
  | cons k rest ih =>
    intro st
    rw [List.foldl_cons, List.foldl_cons]
    rw [topoDfs_fuel_stable byId fuel f2 k st
      (lt_of_le_of_lt (topo_card_le byId st) h1)
      (lt_of_le_of_lt (topo_card_le byId st) h2)]
    exact ih _

theorem nodup_map_id (l : List PTask) (hall : ∀ t ∈ l, ∃ k, t.id = some k)
    (hnd : (outKeys l).Nodup) : (l.map PTask.id).Nodup := by
  induction l with
  | nil => simp
  | cons t rest ih =>
    rcases hall t (List.mem_cons_self t rest) with ⟨k, hk⟩
    have houts : outKeys (t :: rest) = k :: outKeys rest := by
      simp [outKeys, hk]
    rw [houts] at hnd
    rcases List.nodup_cons.mp hnd with ⟨hk1, hk2⟩
    rw [List.map_cons, List.nodup_cons]
    refine ⟨?_, ih (fun t' ht' => hall t' (List.mem_cons_of_mem t ht')) hk2⟩
    rw [hk]
    intro hmem
    rcases List.mem_map.mp hmem with ⟨t', ht', hid⟩
    exact hk1 (mem_outKeys.mpr ⟨t', ht', hid⟩)

theorem dedupe_stable_eq : ∀ (l : List PTask) (seen : Finset (Option String)),
    (∀ t ∈ l, t.id ∉ seen) → (l.map PTask.id).Nodup → dedupe_stable seen l = l := by
  intro l
  induction l with
  | nil => intro seen _ _; rfl
  | cons t rest ih =>
    intro seen hseen hnd
    rw [dedupe_stable, if_neg (hseen t (List.mem_cons_self t rest))]
    rw [List.map_cons] at hnd
    rcases List.nodup_cons.mp hnd with ⟨h1, h2⟩
    congr 1
    refine ih _ ?_ h2
    intro t' ht'
    rw [Finset.mem_insert]
    rintro (hh | hh)
    · exact h1 (by rw [← hh]; exact List.mem_map_of_mem PTask.id ht')
    · exact hseen t' (List.mem_cons_of_mem t ht') hh

theorem sublist_pair_split {p q : String} : ∀ {ks : List String},
    [p, q].Sublist ks → ∃ l1 l2, ks = l1 ++ p :: l2 ∧ q ∈ l2 := by
  intro ks
  induction ks with
  | nil => intro h; cases h
  | cons a rest ih =>
    intro h
    cases h with
    | cons _ h' =>
      rcases ih h' with ⟨l1, l2, he, hq⟩
      exact ⟨a :: l1, l2, by rw [he]; rfl, hq⟩
    | cons₂ _ h' =>
      exact ⟨[], rest, rfl, List.singleton_sublist.mp h'⟩

/-- The shape of a fresh (worked) frame: the task of the visited id is appended
last. -/
theorem topoDfs_worked_shape (byId : List (String × PTask)) (fuel : Nat) (tid : String)
    (st : TopoState) (t : PTask) (h1 : tid ∉ st.visited) (h2 : tid ∉ st.visiting)
    (hl : lookupA byId tid = some t) :
    ∃ Δ, (topoDfs byId (fuel + 1) tid st).out = st.out ++ Δ ++ [t] := by
  rw [topoDfs_succ, if_neg h1, if_neg h2]
  simp only [hl]
  rcases topoDfsFold_extends_of byId fuel (topoDfs_extends byId fuel) t.depends_on
      { st with visiting := insert tid st.visiting } with ⟨-, -, Δ, e3⟩
  refine ⟨Δ, ?_⟩
  show (topoDfsFold byId fuel t.depends_on
      { st with visiting := insert tid st.visiting }).out ++ [t] = st.out ++ Δ ++ [t]
  rw [e3]

theorem topoInv_init (byId : List (String × PTask)) :
    TopoInv byId ⟨∅, ∅, []⟩ := by
  refine ⟨by simp, by simp [outKeys], by simp [outKeys], ?_, ?_⟩
  · intro k hk; cases Finset.not_mem_empty k hk
  · intro t ht; cases ht

theorem depOrder_nil (byId : List (String × PTask)) : DepOrder byId [] := by
  intro pre t post h
  have := congrArg List.length h
  simp at this
  omega

/-- Full specification of the DFS topological sort over a well-formed `by_id`
dict: dependency order under any topological ranking, exactness and
duplicate-freeness of the output, fuel-stability (termination of the unbounded
recursion), and order preservation among ids never listed as dependencies. -/
theorem topo_sort_spec (byId : List (String × PTask))
    (hknd : (byId.map Prod.fst).Nodup)
    (hby : ∀ k t, lookupA byId k = some t → t.id = some k) :
    (∀ rank : String → Nat,
      (∀ k t, lookupA byId k = some t → ∀ d ∈ t.depends_on,
        (lookupA byId d).isSome = true → rank d < rank k) →
      DepOrder byId (dedupe_stable ∅ (topoDfsTop byId (byId.length + 1)).out)) ∧
    (outKeys (dedupe_stable ∅ (topoDfsTop byId (byId.length + 1)).out)).Nodup ∧
    (outKeys (dedupe_stable ∅ (topoDfsTop byId (byId.length + 1)).out)).toFinset
      = keysFinset byId ∧
    (∀ fuel, byId.length + 1 ≤ fuel →
      dedupe_stable ∅ (topoDfsTop byId fuel).out
        = dedupe_stable ∅ (topoDfsTop byId (byId.length + 1)).out) ∧
    (∀ p q : String, p ∉ depsAll byId → q ∉ depsAll byId →
      [p, q].Sublist (byId.map Prod.fst) →
      [p, q].Sublist (outKeys (dedupe_stable ∅ (topoDfsTop byId (byId.length + 1)).out))) := by
  have hksome : ∀ k ∈ byId.map Prod.fst, (lookupA byId k).isSome = true :=
    fun k hk => (lookupA_isSome_iff byId k).mpr hk
  have hInv : TopoInv byId (topoDfsTop byId (byId.length + 1)) :=
    topoFoldTop_inv byId hby (byId.length + 1) (byId.map Prod.fst) ⟨∅, ∅, []⟩ hksome
      (topoInv_init byId)
  have hmarks : ∀ k ∈ byId.map Prod.fst, k ∈ (topoDfsTop byId (byId.length + 1)).visited :=
    topoFoldTop_marks byId (byId.length + 1) (by omega) (byId.map Prod.fst) ⟨∅, ∅, []⟩ rfl
  have hall : ∀ t ∈ (topoDfsTop byId (byId.length + 1)).out, ∃ k, t.id = some k :=
    fun t ht => ⟨(hInv.2.2.2.2 t ht).choose, (hInv.2.2.2.2 t ht).choose_spec.1⟩
  have hnd : (outKeys (topoDfsTop byId (byId.length + 1)).out).Nodup := hInv.2.1
  have hdd : dedupe_stable ∅ (topoDfsTop byId (byId.length + 1)).out
      = (topoDfsTop byId (byId.length + 1)).out :=
    dedupe_stable_eq _ ∅ (fun t _ => Finset.not_mem_empty _) (nodup_map_id _ hall hnd)
  refine ⟨?_, ?_, ?_, ?_, ?_⟩
  · intro rank hrank
    rw [hdd]
    exact topoFoldTop_depOrder byId hby rank hrank (byId.length + 1) (by omega)
      (byId.map Prod.fst) ⟨∅, ∅, []⟩ hksome rfl (topoInv_init byId) (depOrder_nil byId)
  · rw [hdd]; exact hnd
  · rw [hdd]
    rw [← hInv.2.2.1]
    apply Finset.Subset.antisymm
    · intro k hk
      exact hInv.2.2.2.1 k hk
    · intro k hk
      exact hmarks k (by rwa [keysFinset, List.mem_toFinset] at hk)
  · intro fuel hf
    have : topoDfsTop byId fuel = topoDfsTop byId (byId.length + 1) :=
      topoFoldTop_fuel_stable byId fuel (byId.length + 1) (by omega) (by omega)
        (byId.map Prod.fst) ⟨∅, ∅, []⟩
    rw [this]
  · intro p q hp hq hsub
    rw [hdd]
    obtain ⟨l1, l2, hkeq, hql2⟩ := sublist_pair_split hsub
    have hknd' := hknd
    rw [hkeq] at hknd'
    rcases List.nodup_append.mp hknd' with ⟨hnd1, hnd2, hdisj⟩
    have hpl2 : p ∉ l2 := (List.nodup_cons.mp hnd2).1
    have hpl1 : p ∉ l1 := fun hmem => hdisj hmem (List.mem_cons_self p l2)
    have hql1 : q ∉ l1 := fun hmem => hdisj hmem (List.mem_cons_of_mem p hql2)
    have hqp : q ≠ p := fun h => hpl2 (h ▸ hql2)
    have hl1keys : ∀ k ∈ l1, (lookupA byId k).isSome = true := fun k hk =>
      hksome k (by rw [hkeq]; exact List.mem_append_left _ hk)
    have hpkeys : (lookupA byId p).isSome = true :=
      hksome p (by rw [hkeq]; exact List.mem_append_right _ (List.mem_cons_self p l2))
    rcases Option.isSome_iff_exists.mp hpkeys with ⟨tp, htp⟩
    have hres_decomp : topoDfsTop byId (byId.length + 1)
        = l2.foldl (fun st tid => topoDfs byId (byId.length + 1) tid st)
            (topoDfs byId (byId.length + 1) p
              (l1.foldl (fun st tid => topoDfs byId (byId.length + 1) tid st) ⟨∅, ∅, []⟩)) := by
      show (byId.map Prod.fst).foldl (fun st tid => topoDfs byId (byId.length + 1) tid st)
          ⟨∅, ∅, []⟩ = _
      rw [hkeq, List.foldl_append, List.foldl_cons]
    obtain ⟨Δa, hsta_out, hsta_src⟩ := topoFoldTop_delta byId hby (byId.length + 1) l1 ⟨∅, ∅, []⟩
    have hsta_ext := topoFoldTop_extends byId (byId.length + 1) l1 (⟨∅, ∅, []⟩ : TopoState)
    have hsta_visg : (l1.foldl (fun st tid => topoDfs byId (byId.length + 1) tid st)
        (⟨∅, ∅, []⟩ : TopoState)).visiting = ∅ := hsta_ext.1
    have hInva : TopoInv byId (l1.foldl (fun st tid => topoDfs byId (byId.length + 1) tid st)
        ⟨∅, ∅, []⟩) :=
      topoFoldTop_inv byId hby (byId.length + 1) l1 ⟨∅, ∅, []⟩ hl1keys (topoInv_init byId)
    have hpa_visited : p ∉ (l1.foldl (fun st tid => topoDfs byId (byId.length + 1) tid st)
        (⟨∅, ∅, []⟩ : TopoState)).visited := by
      intro hmem
      rw [hInva.2.2.1, List.mem_toFinset] at hmem
      rcases mem_outKeys.mp hmem with ⟨t, ht, hid⟩
      rw [hsta_out] at ht
      rcases hsta_src t (by simpa using ht) with ⟨k, hk1, _, hk3⟩
      rw [hid] at hk1
      cases hk1
      rcases hk3 with hk3 | hk3
      · exact hpl1 hk3
      · exact hp hk3
    obtain ⟨Δp, hstb_shape⟩ := topoDfs_worked_shape byId byId.length p _ tp hpa_visited
      (by rw [hsta_visg]; exact Finset.not_mem_empty p) htp
    obtain ⟨Δp2, hstb_out, hstb_src⟩ := topoDfs_delta byId hby (byId.length + 1) p
      (l1.foldl (fun st tid => topoDfs byId (byId.length + 1) tid st) ⟨∅, ∅, []⟩)
    have hqb : q ∉ outKeys (topoDfs byId (byId.length + 1) p
        (l1.foldl (fun st tid => topoDfs byId (byId.length + 1) tid st)
          (⟨∅, ∅, []⟩ : TopoState))).out := by
      intro hmem
      rcases mem_outKeys.mp hmem with ⟨t, ht, hid⟩
      rw [hstb_out] at ht
      rcases List.mem_append.mp ht with ht | ht
      · rw [hsta_out] at ht
        rcases hsta_src t (by simpa using ht) with ⟨k, hk1, _, hk3⟩
        rw [hid] at hk1
        cases hk1
        rcases hk3 with hk3 | hk3
        · exact hql1 hk3
        · exact hq hk3
      · rcases hstb_src t ht with ⟨k, hk1, _, hk3⟩
        rw [hid] at hk1
        cases hk1
        rcases hk3 with hk3 | hk3
        · exact hqp hk3
        · exact hq hk3
    have hstb_visg : (topoDfs byId (byId.length + 1) p
        (l1.foldl (fun st tid => topoDfs byId (byId.length + 1) tid st)
          (⟨∅, ∅, []⟩ : TopoState))).visiting = ∅ := by
      rw [(topoDfs_extends byId (byId.length + 1) p _).1, hsta_visg]
    have hqfinal : q ∈ (topoDfsTop byId (byId.length + 1)).visited := by
      rw [hres_decomp]
      exact topoFoldTop_marks byId (byId.length + 1) (by omega) l2 _ hstb_visg q hql2
    have hqout : q ∈ outKeys (topoDfsTop byId (byId.length + 1)).out := by
      rw [hInv.2.2.1, List.mem_toFinset] at hqfinal
      exact hqfinal
    obtain ⟨Δr, hres_out, _⟩ := topoFoldTop_delta byId hby (byId.length + 1) l2
      (topoDfs byId (byId.length + 1) p
        (l1.foldl (fun st tid => topoDfs byId (byId.length + 1) tid st) ⟨∅, ∅, []⟩))
    have hres_out' : (topoDfsTop byId (byId.length + 1)).out
        = (topoDfs byId (byId.length + 1) p
            (l1.foldl (fun st tid => topoDfs byId (byId.length + 1) tid st)
              (⟨∅, ∅, []⟩ : TopoState))).out ++ Δr := by
      rw [hres_decomp]
      exact hres_out
    have htpid : tp.id = some p := hby p tp htp
    have hstb_keys : outKeys (topoDfs byId (byId.length + 1) p
        (l1.foldl (fun st tid => topoDfs byId (byId.length + 1) tid st)
          (⟨∅, ∅, []⟩ : TopoState))).out
        = (outKeys (l1.foldl (fun st tid => topoDfs byId (byId.length + 1) tid st)
            (⟨∅, ∅, []⟩ : TopoState)).out ++ outKeys Δp) ++ [p] := by
      have : topoDfs byId (byId.length + 1) p
          (l1.foldl (fun st tid => topoDfs byId (byId.length + 1) tid st)
            (⟨∅, ∅, []⟩ : TopoState)) = topoDfs byId (byId.length + 1) p _ := rfl
      rw [show (byId.length + 1) = byId.length + 1 from rfl] at hstb_shape
      rw [hstb_shape, outKeys_append, outKeys_append]
      congr 1
      simp [outKeys, htpid]
    have hqr : q ∈ outKeys Δr := by
      rw [hres_out', outKeys_append] at hqout
      rcases List.mem_append.mp hqout with h | h
      · exact absurd h hqb
      · exact h
    rw [hres_out', outKeys_append, hstb_keys]
    have hsl1 : [p, q].Sublist (p :: outKeys Δr) :=
      (List.singleton_sublist.mpr hqr).cons₂ p
    have hsl2 : (p :: outKeys Δr).Sublist
        (((outKeys (l1.foldl (fun st tid => topoDfs byId (byId.length + 1) tid st)
            (⟨∅, ∅, []⟩ : TopoState)).out ++ outKeys Δp) ++ [p]) ++ outKeys Δr) := by
      rw [List.append_assoc _ [p]]
      exact List.sublist_append_right _ _
    exact hsl1.trans hsl2

/-- C3 (amended): For every plan whose dependency graph over the ids present
in `by_id` is acyclic — equivalently, admits a topological ranking — the sort
places each task after every task it depends on; for every plan, cycles
included, the sort terminates without raising, emitting exactly the `by_id`
tasks' ids and each exactly once, and any fuel at least `len(by_id) + 1`
computes the same result (the Python recursion is unbounded but never deeper);
and insertion order is preserved among tasks that no task lists as a
dependency.  (Insertion order among *independent* tasks in general is NOT
preserved — see the counterexample — because an earlier task's dependency list
pulls independent tasks in in its own order.) -/
theorem C3_topo_sort_amended (tasks : List PTask) :
    (∀ rank : String → Nat,
      (∀ k t, lookupA (by_id tasks) k = some t → ∀ d ∈ t.depends_on,
        (lookupA (by_id tasks) d).isSome = true → rank d < rank k) →
      DepOrder (by_id tasks) (_agentic_topo_sort tasks)) ∧
    (outKeys (_agentic_topo_sort tasks)).Nodup ∧
    (outKeys (_agentic_topo_sort tasks)).toFinset = keysFinset (by_id tasks) ∧
    (∀ fuel, (by_id tasks).length + 1 ≤ fuel →
      dedupe_stable ∅ (topoDfsTop (by_id tasks) fuel).out = _agentic_topo_sort tasks) ∧
    (∀ p q : String, p ∉ depsAll (by_id tasks) → q ∉ depsAll (by_id tasks) →
      [p, q].Sublist ((by_id tasks).map Prod.fst) →
      [p, q].Sublist (outKeys (_agentic_topo_sort tasks))) := by
  obtain ⟨hknd, hby⟩ := by_id_wf tasks
  exact topo_sort_spec (by_id tasks) hknd hby

/-- Witness for C3 at a concrete acyclic plan with an explicit topological
ranking. -/
theorem C3_witness :
    DepOrder (by_id c3Tasks) (_agentic_topo_sort c3Tasks) :=
  (C3_topo_sort_amended c3Tasks).1 (fun s => if s = "b" then 1 else 0) (by
    intro k t hl d hd hds
    have hb : by_id c3Tasks
        = [("a", { id := some "a" }),
           ("b", { id := some "b", depends_on := ["a"] })] := rfl
    rw [hb] at hl
    simp only [lookupA] at hl
    by_cases h1 : "a" = k
    · rw [if_pos h1] at hl
      cases hl
      cases hd
    · rw [if_neg h1] at hl
      by_cases h2 : "b" = k
      · rw [if_pos h2] at hl
        cases hl
        rw [List.mem_singleton] at hd
        subst hd
        subst h2
        decide
      · rw [if_neg h2] at hl
        cases hl)
